import Mathlib

/-!
Verification of `validation.go`

A shallow embedding of the Go package `validation` (rule registry, single
key/value validation, flat map validation, reflective structure traversal)
together with theorems about it.

Modelling conventions

* A Go `string` is a `String`.
* A Go `error` result is an `Option String`: `none` is `nil`, `some t` is a
  non-nil error whose `Error()` text is `t`.
* A `Rule` (`func(string) error`) is a pure total function
  `String → Option String`.
* A Go `map[string]V` is an association list `GoMap V` read with `mapGet` and
  written with `mapSet` (which overwrites an existing key, so maps built
  from the empty map keep their keys distinct).  A `range` loop over a map
  visits the entries of the list in list order; the theorems about `Validate`
  hold for every such enumeration.
* A loop is a fold of its body over the sequence it ranges over, on the
  variables it updates.
* A panic is the result `none` of an `Option`-valued function.
-/

namespace Validation

/-! ## Go maps with string keys -/

/-- Association-list model of a Go `map[string]V`. -/
abbrev GoMap (V : Type) := List (String × V)

/-- The lookup `v, ok := m[k]`: `none` when the key is absent. -/
def mapGet {V : Type} : GoMap V → String → Option V
  | [], _ => none
  | (k', v) :: rest, k => if k' = k then some v else mapGet rest k

/-- The assignment `m[k] = v`: overwrites the entry of `k` when present,
adds a new entry otherwise. -/
def mapSet {V : Type} : GoMap V → String → V → GoMap V
  | [], k, v => [(k, v)]
  | (k', v') :: rest, k, v =>
    if k' = k then (k, v) :: rest else (k', v') :: mapSet rest k v

/-- The keys of a map, in enumeration order. -/
def mapKeys {V : Type} (m : GoMap V) : List String := m.map Prod.fst

/-! ## Data model -/

/-- The type `Rule func(string) error`. -/
abbrev Rule := String → Option String

/-- The type `Constraint struct { Rule Rule; Message error }`. -/
structure Constraint where
  Rule : Rule
  Message : Option String

/-- The type `Rules struct { Map map[string][]Constraint }`.  The map of a
registry is a non-nil map, as `New` makes it. -/
structure Rules where
  Map : GoMap (List Constraint)

/-- The constructor `New()`: a registry with an empty map. -/
def New : Rules := { Map := [] }

/-- The stock rule `NotEmpty`. -/
def NotEmpty (value : String) : Option String :=
  if value = "" then some "This value is required" else none

/-! ## Registration -/

/-- The method `Rules.Add`. -/
def Rules.Add (self : Rules) (name : String) (rule : Rule) (message : String) : Rules :=
  let constraint : Constraint := { Rule := rule, Message := none }
  let constraints : List Constraint :=
    match mapGet self.Map name with
    | some cs => cs
    | none => []
  let constraint : Constraint :=
    if message.utf8ByteSize > 0 then { constraint with Message := some message } else constraint
  let constraints := constraints ++ [constraint]
  { Map := mapSet self.Map name constraints }

/-- The method `Rules.AddRequired`. -/
def Rules.AddRequired (self : Rules) (name : String) (rule : Rule) (message : String) : Rules :=
  let self := self.Add name NotEmpty ""
  self.Add name rule message

/-! ## Validation of one key/value pair -/

/-- One iteration of the loop body of `ValidateKeyValue` (lines 46-54) on the
loop state `(passed, errors)`. -/
def validateStep (value : String) (st : Bool × List String) (constraint : Constraint) :
    Bool × List String :=
  match constraint.Rule value with
  | none => st
  | some test =>
    let error := test
    let error := match constraint.Message with
      | some m => m
      | none => error
    (false, st.2 ++ [error])

/-- The method `Rules.ValidateKeyValue`. -/
def Rules.ValidateKeyValue (self : Rules) (key value : String) : Bool × List String :=
  let errors : List String := []
  let passed := true
  match mapGet self.Map key with
  | some constraints => constraints.foldl (validateStep value) (passed, errors)
  | none => (passed, errors)

/-! ## Validation of a flat map -/

/-- One iteration of the loop body of `Validate` (lines 67-72) on the loop
state `(valid, messages)`. -/
def validateParamStep (self : Rules) (params : GoMap String)
    (st : Bool × GoMap (List String)) (key : String) : Bool × GoMap (List String) :=
  let value := (mapGet params key).getD ""
  let (passed, errors) := self.ValidateKeyValue key value
  if passed == false then (false, mapSet st.2 key errors) else st

/-- The method `Rules.Validate`. -/
def Rules.Validate (self : Rules) (params : GoMap String) : Bool × GoMap (List String) :=
  (mapKeys params).foldl (validateParamStep self params) (true, [])

/-! ## Validation of a structure

`ValidateStruct` inspects its argument through package `reflect`.  The
embedding keeps the part of a reflected value the traversal looks at: its
kind, the name and package path of each field of a struct, whether a value of
kind string has the type `string` itself (the type assertion
`f.Interface().(string)` panics for any other type of that kind), and the
pointee of a pointer.  `Value.Interface` panics on a field reached through
an unexported name, which `reflect` records as a non-empty `PkgPath`. -/

/-- The part of `reflect.StructField` the traversal reads: the field name and
the package path, empty exactly for an exported field. -/
structure StructField where
  Name : String
  PkgPath : String

/-- A Go value as seen through `reflect`: a value of kind `String` (with the
flag telling whether its type is `string` itself), a struct with its fields
in declaration order, a pointer (nil or to a value), or a value of any
other kind. -/
inductive Value where
  | str (isString : Bool) (s : String)
  | struct (fields : List (StructField × Value))
  | ptr (elem : Option Value)
  | other

/-- The loop `for key, value := range errormap { messages[key] = value }`
(lines 113-115). -/
def mapMerge {V : Type} (messages errormap : GoMap V) : GoMap V :=
  errormap.foldl (fun m kv => mapSet m kv.1 kv.2) messages

mutual
/-- The method `Rules.validateStructWithKeyPrefix`.  A pointer is
dereferenced once (lines 91-93); `Type()` and `NumField()` panic unless the
value then is a struct. -/
def Rules.validateStructWithKeyPrefix (self : Rules) (pre : String) :
    Value → Option (Bool × GoMap (List String))
  | .struct fields => fieldLoop self pre fields (true, [])
  | .ptr (some (.struct fields)) => fieldLoop self pre fields (true, [])
  | _ => none
/-- The loop over the fields (lines 96-119) on the loop state
`(valid, messages)`, from the current field on. -/
def fieldLoop (self : Rules) (pre : String) :
    List (StructField × Value) → Bool × GoMap (List String) →
      Option (Bool × GoMap (List String))
  | [], st => some st
  | (sf, f) :: rest, st =>
    let key := pre ++ sf.Name
    match f with
    | .str isString s =>
      if sf.PkgPath ≠ "" then none else
      if isString = false then none else
      let (passed, errors) := self.ValidateKeyValue key s
      if passed == false then fieldLoop self pre rest (false, mapSet st.2 key errors)
      else fieldLoop self pre rest st
    | .struct fs =>
      if sf.PkgPath ≠ "" then none else
      match Rules.validateStructWithKeyPrefix self (key ++ ".") (.struct fs) with
      | none => none
      | some (passed, errormap) =>
        if passed == false then fieldLoop self pre rest (false, mapMerge st.2 errormap)
        else fieldLoop self pre rest st
    | _ => fieldLoop self pre rest st
end

/-- The method `Rules.ValidateStruct`. -/
def Rules.ValidateStruct (self : Rules) (s : Value) : Option (Bool × GoMap (List String)) :=
  self.validateStructWithKeyPrefix "" s

/-! ## Specification-side notions -/

/-- The constraint sequence registered for `key` (empty when absent). -/
def Rules.constraintsOf (self : Rules) (key : String) : List Constraint :=
  (mapGet self.Map key).getD []

/-- The message a constraint reports for `value`, if its rule rejects it:
the override message when there is one, the rule's own text otherwise. -/
def Constraint.report (c : Constraint) (value : String) : Option String :=
  match c.Rule value with
  | none => none
  | some e => some (c.Message.getD e)

/-- The constraint that `Add` builds from a rule and a message string. -/
def newConstraint (rule : Rule) (message : String) : Constraint :=
  { Rule := rule, Message := if message = "" then none else some message }

mutual
/-- The string leaves of a record value (none for a value of another kind). -/
def recordLeaves (pre : String) : Value → List (String × String)
  | .struct fs => fieldLeaves pre fs
  | _ => []
/-- The string leaves of a record with their dotted paths, in traversal
order: a string field gives the path `pre ++ name`, a nested record is
entered with the prefix `pre ++ name ++ "."`, any other field gives
nothing. -/
def fieldLeaves (pre : String) : List (StructField × Value) → List (String × String)
  | [] => []
  | (sf, f) :: rest =>
    match f with
    | .str _ s => (pre ++ sf.Name, s) :: fieldLeaves pre rest
    | .struct fs => recordLeaves (pre ++ sf.Name ++ ".") (.struct fs) ++ fieldLeaves pre rest
    | _ => fieldLeaves pre rest
end

mutual
/-- The fields of a record value are traversable (see `traversable`). -/
def recordTraversable : Value → Bool
  | .struct fs => traversable fs
  | _ => true
/-- Every string field and every nested record field, at any depth, is
exported, and every string field has the type `string` itself. -/
def traversable : List (StructField × Value) → Bool
  | [] => true
  | (sf, f) :: rest =>
    match f with
    | .str isString _ => (sf.PkgPath == "") && isString && traversable rest
    | .struct fs => (sf.PkgPath == "") && recordTraversable (.struct fs) && traversable rest
    | _ => traversable rest
end

mutual
/-- The field names of a record value are distinct (see `uniqueNames`). -/
def recordUniqueNames : Value → Bool
  | .struct fs => uniqueNames fs
  | _ => true
/-- The field names are pairwise distinct within each record, at any depth. -/
def uniqueNames : List (StructField × Value) → Bool
  | [] => true
  | (sf, f) :: rest =>
    !(rest.any (fun p => p.1.Name == sf.Name)) && recordUniqueNames f && uniqueNames rest
end

mutual
/-- The field names of a record value are dot-free (see `dotFree`). -/
def recordDotFree : Value → Bool
  | .struct fs => dotFree fs
  | _ => true
/-- No field name, at any depth, contains the character '.' (a Go identifier
never does). -/
def dotFree : List (StructField × Value) → Bool
  | [] => true
  | (sf, f) :: rest => !(sf.Name.data.contains '.') && recordDotFree f && dotFree rest
end

/-- The fields of a record passed by value or through a pointer. -/
def recordFields : Value → Option (List (StructField × Value))
  | .struct fields => some fields
  | .ptr (some (.struct fields)) => some fields
  | _ => none

/-- The message list of the last leaf with path `k` that fails validation,
if there is one. -/
def lastFailure (self : Rules) : List (String × String) → String → Option (List String)
  | [], _ => none
  | (k', s) :: rest, k =>
    (lastFailure self rest k).or
      (if k' = k ∧ (self.ValidateKeyValue k' s).1 = false
       then some (self.ValidateKeyValue k' s).2 else none)

/-- Every leaf passes validation under its path. -/
def allValid (self : Rules) (leaves : List (String × String)) : Bool :=
  leaves.all (fun p => (self.ValidateKeyValue p.1 p.2).1)

/-- The result C6 describes for a record with the given fields:
`ValidateStruct` returns, and its message map has the entry `errs` under a
path `k` exactly when a string leaf with dotted path `k` fails validation
under the key `k` with message list `errs`. -/
def DottedPathsResult (self : Rules) (s : Value) (fields : List (StructField × Value)) : Prop :=
  ∃ valid messages, self.ValidateStruct s = some (valid, messages) ∧
    ∀ k errs, mapGet messages k = some errs ↔
      ∃ v, (k, v) ∈ fieldLeaves "" fields ∧ self.ValidateKeyValue k v = (false, errs)

/-- A kind the traversal skips: neither string nor struct. -/
def skippedKind : Value → Bool
  | .str _ _ => false
  | .struct _ => false
  | _ => true

mutual
/-- A record value without its skipped fields (see `stripSkipped`). -/
def recordStripSkipped : Value → Value
  | .struct fs => .struct (stripSkipped fs)
  | .str b s => .str b s
  | .ptr e => .ptr e
  | .other => .other
/-- The fields of a record without the fields of a skipped kind, at any
depth. -/
def stripSkipped : List (StructField × Value) → List (StructField × Value)
  | [] => []
  | (sf, f) :: rest =>
    match f with
    | .str b s => (sf, .str b s) :: stripSkipped rest
    | .struct fs => (sf, recordStripSkipped (.struct fs)) :: stripSkipped rest
    | _ => stripSkipped rest
end

/-- An argument of `ValidateStruct` without the fields of a skipped kind. -/
def stripRecord : Value → Value
  | .struct fs => .struct (stripSkipped fs)
  | .ptr (some (.struct fs)) => .ptr (some (.struct (stripSkipped fs)))
  | v => v

/-- A well-formed validation result: the boolean is `true` exactly when the
message map has no entry, and every entry is a non-empty message list. -/
def WellFormedResult (out : Bool × GoMap (List String)) : Prop :=
  (out.1 = true ↔ out.2 = []) ∧ ∀ k errs, (k, errs) ∈ out.2 → errs ≠ []

/-- A registration call: `Add` or `AddRequired` with its arguments. -/
inductive Registration where
  | add (name : String) (rule : Rule) (message : String)
  | addRequired (name : String) (rule : Rule) (message : String)

/-- Runs one registration call on a registry. -/
def Rules.register (self : Rules) : Registration → Rules
  | .add name rule message => self.Add name rule message
  | .addRequired name rule message => self.AddRequired name rule message

/-- Runs a sequence of registration calls, in order. -/
def Rules.registerAll (self : Rules) (calls : List Registration) : Rules :=
  calls.foldl Rules.register self

/-- The registry holds for `name` a non-empty constraint without override. -/
def Rules.requires (self : Rules) (name : String) : Prop :=
  ∃ c ∈ self.constraintsOf name, c.Rule = NotEmpty ∧ c.Message = none

/-! ## Basic facts about Go maps -/

theorem mapGet_mapSet_same {V : Type} (m : GoMap V) (k : String) (v : V) :
    mapGet (mapSet m k v) k = some v := by
  induction m with
  | nil => simp [mapSet, mapGet]
  | cons hd tl ih =>
    obtain ⟨k', v'⟩ := hd
    by_cases h : k' = k
    · simp [mapSet, mapGet, h]
    · simp [mapSet, mapGet, h, ih]

theorem mapGet_mapSet_other {V : Type} (m : GoMap V) (k k' : String) (v : V) (h : k ≠ k') :
    mapGet (mapSet m k v) k' = mapGet m k' := by
  induction m with
  | nil => simp [mapSet, mapGet, h]
  | cons hd tl ih =>
    obtain ⟨k0, v0⟩ := hd
    by_cases h0 : k0 = k
    · subst h0
      simp [mapSet, mapGet, h]
    · simp [mapSet, mapGet, h0, ih]

theorem mapGet_mapSet {V : Type} (m : GoMap V) (k k' : String) (v : V) :
    mapGet (mapSet m k v) k' = if k = k' then some v else mapGet m k' := by
  by_cases h : k = k'
  · subst h
    simp [mapGet_mapSet_same]
  · simp [h, mapGet_mapSet_other m k k' v h]

theorem mapGet_isSome_iff {V : Type} (m : GoMap V) (k : String) :
    (mapGet m k).isSome = true ↔ k ∈ mapKeys m := by
  induction m with
  | nil => simp [mapGet, mapKeys]
  | cons hd tl ih =>
    obtain ⟨k0, v0⟩ := hd
    by_cases h0 : k0 = k
    · simp [mapGet, mapKeys, h0]
    · have h1 : ¬ k = k0 := fun h => h0 h.symm
      simp only [mapKeys] at ih
      simp [mapGet, mapKeys, h0, h1, ih]

/-! ## Byte length of a string -/

theorem utf8ByteSize_pos_iff (s : String) : s.utf8ByteSize > 0 ↔ s ≠ "" := by
  obtain ⟨cs⟩ := s
  cases cs with
  | nil => simp [String.utf8ByteSize, String.utf8ByteSize.go]
  | cons c cs =>
    have hc : 0 < c.utf8Size := Char.utf8Size_pos c
    have hne : (String.mk (c :: cs)) ≠ "" := by
      intro h
      have := congrArg String.data h
      simp at this
    simp only [String.utf8ByteSize, String.utf8ByteSize.go, gt_iff_lt, ne_eq, hne,
      not_false_eq_true, iff_true]
    omega

/-! ## The loop of `ValidateKeyValue` -/

theorem foldl_validateStep (value : String) (cs : List Constraint) (st : Bool × List String) :
    cs.foldl (validateStep value) st =
      (st.1 && cs.all (fun c => (c.Rule value).isNone),
       st.2 ++ cs.filterMap (fun c => c.report value)) := by
  induction cs generalizing st with
  | nil => simp
  | cons c cs ih =>
    rw [List.foldl_cons, ih]
    cases h : c.Rule value with
    | none => simp [validateStep, Constraint.report, h]
    | some e => simp [validateStep, Constraint.report, h]; cases c.Message <;> rfl

theorem ValidateKeyValue_eq (self : Rules) (key value : String) :
    self.ValidateKeyValue key value =
      ((self.constraintsOf key).all (fun c => (c.Rule value).isNone),
       (self.constraintsOf key).filterMap (fun c => c.report value)) := by
  unfold Rules.ValidateKeyValue Rules.constraintsOf
  cases h : mapGet self.Map key with
  | none => simp
  | some cs => simp [foldl_validateStep]

/-! ## Registration lemmas -/

theorem Add_map (self : Rules) (name : String) (rule : Rule) (message : String) :
    (self.Add name rule message).Map =
      mapSet self.Map name (self.constraintsOf name ++ [newConstraint rule message]) := by
  unfold Rules.Add Rules.constraintsOf newConstraint
  by_cases hm : message = ""
  · subst hm
    cases h : mapGet self.Map name <;> simp [String.utf8ByteSize, String.utf8ByteSize.go]
  · have hpos : message.utf8ByteSize > 0 := (utf8ByteSize_pos_iff message).2 hm
    cases h : mapGet self.Map name <;> simp [hpos, hm]

theorem constraintsOf_Add_same (self : Rules) (name : String) (rule : Rule) (message : String) :
    (self.Add name rule message).constraintsOf name =
      self.constraintsOf name ++ [newConstraint rule message] := by
  rw [Rules.constraintsOf, Add_map, mapGet_mapSet_same]
  rfl

theorem mapGet_Add_other (self : Rules) (name other : String) (rule : Rule) (message : String)
    (h : name ≠ other) :
    mapGet (self.Add name rule message).Map other = mapGet self.Map other := by
  rw [Add_map, mapGet_mapSet_other _ _ _ _ h]

theorem ValidateKeyValue_congr (r1 r2 : Rules) (key : String)
    (h : mapGet r1.Map key = mapGet r2.Map key) (value : String) :
    r1.ValidateKeyValue key value = r2.ValidateKeyValue key value := by
  unfold Rules.ValidateKeyValue
  rw [h]

/-! ## Claims about `ValidateKeyValue` -/

/-- C1: the message list of `ValidateKeyValue` is the list of reports of the
constraints registered for the key whose rule rejects the value, one message
per rejecting constraint, in registration order; in particular, when `c1` is
registered before `c2` and both reject, the message of `c1` stands before the
message of `c2`, each at the position given by the rejecting constraints
around them. -/
theorem ValidateKeyValue_messages_in_registration_order
    (self : Rules) (key value : String) :
    (self.ValidateKeyValue key value).2 =
        (self.constraintsOf key).filterMap (fun c => c.report value)
    ∧ (self.ValidateKeyValue key value).2.length =
        ((self.constraintsOf key).filter (fun c => (c.Rule value).isSome)).length
    ∧ ∀ (before between after : List Constraint) (c1 c2 : Constraint) (m1 m2 : String),
        self.constraintsOf key = before ++ c1 :: (between ++ c2 :: after) →
        c1.report value = some m1 → c2.report value = some m2 →
        (self.ValidateKeyValue key value).2 =
          before.filterMap (fun c => c.report value) ++ m1 ::
            (between.filterMap (fun c => c.report value) ++ m2 ::
              after.filterMap (fun c => c.report value)) := by
  have hmsgs := congrArg Prod.snd (ValidateKeyValue_eq self key value)
  simp only at hmsgs
  refine ⟨hmsgs, ?_, ?_⟩
  · rw [hmsgs]
    generalize self.constraintsOf key = cs
    induction cs with
    | nil => simp
    | cons c cs ih =>
      cases h : c.Rule value with
      | none => simpa [List.filterMap_cons, List.filter_cons, Constraint.report, h] using ih
      | some e => simpa [List.filterMap_cons, List.filter_cons, Constraint.report, h] using ih
  · intro before between after c1 c2 m1 m2 hcs h1 h2
    rw [hmsgs, hcs]
    simp [List.filterMap_append, List.filterMap_cons, h1, h2]

/-- C1 witness: two rejecting constraints on the key "x". -/
theorem ValidateKeyValue_messages_in_registration_order_witness :
    (((New.Add "x" NotEmpty "").Add "x" (fun _ => some "bad") "worse").ValidateKeyValue
        "x" "").2 = ["This value is required", "worse"] :=
  (ValidateKeyValue_messages_in_registration_order
      ((New.Add "x" NotEmpty "").Add "x" (fun _ => some "bad") "worse") "x" "").2.2
    [] [] [] ⟨NotEmpty, none⟩ ⟨fun _ => some "bad", some "worse"⟩
    "This value is required" "worse" rfl rfl rfl

/-- C2: a key without registered constraints (absent from the registry, or
present with an empty sequence) is valid for every value, with no message. -/
theorem ValidateKeyValue_unregistered (self : Rules) (key value : String)
    (h : self.constraintsOf key = []) :
    self.ValidateKeyValue key value = (true, []) := by
  rw [ValidateKeyValue_eq, h]
  simp

/-- C2 witness: the fresh registry has no constraint for "x". -/
theorem ValidateKeyValue_unregistered_witness :
    New.constraintsOf "x" = [] ∧ New.ValidateKeyValue "x" "anything" = (true, []) :=
  ⟨rfl, ValidateKeyValue_unregistered New "x" "anything" rfl⟩

/-- C3: for a constraint added with `Add name rule message` and a value the
rule rejects with text `e`, `ValidateKeyValue` reports for that constraint
(after the messages of the earlier constraints of `name`) exactly `message`
when a non-empty override was given, and exactly `e` otherwise; the override
replaces the rule's text and is not joined to it. -/
theorem ValidateKeyValue_override_replaces
    (self : Rules) (name : String) (rule : Rule) (message value e : String)
    (h : rule value = some e) :
    (self.Add name rule message).ValidateKeyValue name value =
        (false, (self.ValidateKeyValue name value).2 ++ [if message = "" then e else message])
    ∧ (newConstraint rule message).report value = some (if message = "" then e else message) := by
  have hrep : (newConstraint rule message).report value =
      some (if message = "" then e else message) := by
    unfold Constraint.report newConstraint
    simp only [h]
    by_cases hm : message = "" <;> simp [hm]
  refine ⟨?_, hrep⟩
  rw [ValidateKeyValue_eq, ValidateKeyValue_eq, constraintsOf_Add_same]
  have hrep' : List.filterMap (fun c => c.report value) [newConstraint rule message] =
      [if message = "" then e else message] := by
    simp [List.filterMap_cons, hrep]
  rw [List.filterMap_append, hrep']
  simp [newConstraint, h]

/-- C3 witness: an override replaces the text of the rule, and the text of the
rule is reported when the override is empty. -/
theorem ValidateKeyValue_override_replaces_witness :
    (New.Add "x" (fun _ => some "bad") "worse").ValidateKeyValue "x" "v" = (false, ["worse"])
    ∧ (newConstraint (fun _ => some "bad") "worse").report "v" = some "worse" :=
  ValidateKeyValue_override_replaces New "x" (fun _ => some "bad") "worse" "v" "bad" rfl

/-- C4: the boolean of `ValidateKeyValue` is the conjunction of the outcomes
of all constraints registered for the key: it is `true` exactly when every
registered rule accepts the value. -/
theorem ValidateKeyValue_valid_iff_all_accept (self : Rules) (key value : String) :
    (self.ValidateKeyValue key value).1 =
        (self.constraintsOf key).all (fun c => (c.Rule value).isNone)
    ∧ ((self.ValidateKeyValue key value).1 = true ↔
        ∀ c ∈ self.constraintsOf key, c.Rule value = none) := by
  have hb := congrArg Prod.fst (ValidateKeyValue_eq self key value)
  simp only at hb
  refine ⟨hb, ?_⟩
  rw [hb]
  simp [List.all_eq_true]

/-! ## The loop of `Validate` -/

theorem validateParamStep_eq (self : Rules) (params : GoMap String)
    (st : Bool × GoMap (List String)) (key : String) :
    validateParamStep self params st key =
      if (self.ValidateKeyValue key ((mapGet params key).getD "")).1 = false
      then (false, mapSet st.2 key (self.ValidateKeyValue key ((mapGet params key).getD "")).2)
      else st := by
  unfold validateParamStep
  cases hp : (self.ValidateKeyValue key ((mapGet params key).getD "")).1 <;> simp [hp]

theorem foldl_validateParamStep_valid (self : Rules) (params : GoMap String)
    (ks : List String) (st : Bool × GoMap (List String)) :
    (ks.foldl (validateParamStep self params) st).1 =
      (st.1 && ks.all
        (fun k => (self.ValidateKeyValue k ((mapGet params k).getD "")).1)) := by
  induction ks generalizing st with
  | nil => simp
  | cons k ks ih =>
    rw [List.foldl_cons, ih, validateParamStep_eq]
    cases hp : (self.ValidateKeyValue k ((mapGet params k).getD "")).1 <;> simp [hp]

theorem foldl_validateParamStep_get (self : Rules) (params : GoMap String)
    (ks : List String) (st : Bool × GoMap (List String)) (k : String) :
    mapGet (ks.foldl (validateParamStep self params) st).2 k =
      if k ∈ ks ∧ (self.ValidateKeyValue k ((mapGet params k).getD "")).1 = false
      then some (self.ValidateKeyValue k ((mapGet params k).getD "")).2
      else mapGet st.2 k := by
  induction ks generalizing st with
  | nil => simp
  | cons k0 ks ih =>
    rw [List.foldl_cons, ih, validateParamStep_eq]
    by_cases hfail : (self.ValidateKeyValue k ((mapGet params k).getD "")).1 = false
    · by_cases hmem : k ∈ ks
      · simp [hmem, hfail]
      · by_cases hk : k = k0
        · subst hk
          simp [hmem, hfail, mapGet_mapSet_same]
        · have hk' : ¬ k0 = k := fun h => hk h.symm
          simp only [hmem, hfail, and_true, if_false, List.mem_cons, hk, or_self]
          cases hp : (self.ValidateKeyValue k0 ((mapGet params k0).getD "")).1
          · simp [mapGet_mapSet_other _ _ _ _ hk']
          · simp
    · simp only [hfail, and_false, if_false]
      cases hp : (self.ValidateKeyValue k0 ((mapGet params k0).getD "")).1
      · have hk' : ¬ k0 = k := by
          intro h
          subst h
          exact hfail hp
        simp [mapGet_mapSet_other _ _ _ _ hk']
      · simp

/-- C5: the message map of `Validate` has an entry for `k` exactly when `k` is
a key of `params` and `ValidateKeyValue k params[k]` is invalid, the entry
being the message list of that call; the boolean is `true` exactly when
`ValidateKeyValue` is valid for every key of `params`. -/
theorem Validate_messages_and_validity (self : Rules) (params : GoMap String) :
    (∀ k errs, mapGet (self.Validate params).2 k = some errs ↔
        (k ∈ mapKeys params ∧
          self.ValidateKeyValue k ((mapGet params k).getD "") = (false, errs)))
    ∧ ((self.Validate params).1 = true ↔
        ∀ k ∈ mapKeys params,
          (self.ValidateKeyValue k ((mapGet params k).getD "")).1 = true) := by
  constructor
  · intro k errs
    unfold Rules.Validate
    rw [foldl_validateParamStep_get]
    by_cases hc : k ∈ mapKeys params ∧
        (self.ValidateKeyValue k ((mapGet params k).getD "")).1 = false
    · rw [if_pos hc]
      constructor
      · intro h
        refine ⟨hc.1, ?_⟩
        have h2 : (self.ValidateKeyValue k ((mapGet params k).getD "")).2 = errs := by
          simpa using h
        exact Prod.ext hc.2 h2
      · rintro ⟨_, h⟩
        rw [h]
    · rw [if_neg hc]
      simp only [mapGet]
      constructor
      · intro h
        cases h
      · rintro ⟨hm, h⟩
        exact absurd ⟨hm, by rw [h]⟩ hc
  · unfold Rules.Validate
    rw [foldl_validateParamStep_valid]
    simp [List.all_eq_true]

/-! ## Claims about registration -/

/-- C7: `Add name rule message` makes the constraint sequence of `name` its
previous sequence (empty when `name` was absent) followed by exactly one new
constraint carrying `rule`; the previous constraints stay, in order, as a
prefix.  `Add` is a total function: it has no failing case. -/
theorem Add_appends_one_constraint
    (self : Rules) (name : String) (rule : Rule) (message : String) :
    mapGet (self.Add name rule message).Map name =
        some (self.constraintsOf name ++ [newConstraint rule message])
    ∧ (self.Add name rule message).constraintsOf name =
        self.constraintsOf name ++ [newConstraint rule message]
    ∧ (newConstraint rule message).Rule = rule
    ∧ self.constraintsOf name <+: (self.Add name rule message).constraintsOf name
    ∧ ((self.Add name rule message).constraintsOf name).length =
        (self.constraintsOf name).length + 1 := by
  refine ⟨?_, constraintsOf_Add_same self name rule message, rfl, ?_, ?_⟩
  · rw [Add_map, mapGet_mapSet_same]
  · rw [constraintsOf_Add_same]
    exact List.prefix_append _ _
  · rw [constraintsOf_Add_same]
    simp

/-- C8: for distinct field names `name` and `other`, `Add` and `AddRequired`
on `name` leave the constraint sequence of `other` unchanged, so
`ValidateKeyValue other v` gives the same result before and after. -/
theorem registration_preserves_other_fields
    (self : Rules) (name other : String) (rule : Rule) (message : String)
    (h : name ≠ other) :
    mapGet (self.Add name rule message).Map other = mapGet self.Map other
    ∧ mapGet (self.AddRequired name rule message).Map other = mapGet self.Map other
    ∧ (∀ v, (self.Add name rule message).ValidateKeyValue other v =
        self.ValidateKeyValue other v)
    ∧ (∀ v, (self.AddRequired name rule message).ValidateKeyValue other v =
        self.ValidateKeyValue other v) := by
  have h1 : mapGet (self.Add name rule message).Map other = mapGet self.Map other :=
    mapGet_Add_other self name other rule message h
  have h2 : mapGet (self.AddRequired name rule message).Map other = mapGet self.Map other := by
    unfold Rules.AddRequired
    rw [mapGet_Add_other _ name other rule message h, mapGet_Add_other _ name other _ _ h]
  exact ⟨h1, h2, fun v => ValidateKeyValue_congr _ _ other h1 v,
    fun v => ValidateKeyValue_congr _ _ other h2 v⟩

/-- C8 witness: registering on "a" does not change the constraints of "b". -/
theorem registration_preserves_other_fields_witness :
    mapGet ((New.Add "b" NotEmpty "").Add "a" NotEmpty "gone").Map "b" =
        mapGet (New.Add "b" NotEmpty "").Map "b"
    ∧ ((New.Add "b" NotEmpty "").AddRequired "a" NotEmpty "gone").ValidateKeyValue "b" "" =
        (New.Add "b" NotEmpty "").ValidateKeyValue "b" "" :=
  ⟨(registration_preserves_other_fields (New.Add "b" NotEmpty "") "a" "b" NotEmpty "gone"
      (by decide)).1,
   (registration_preserves_other_fields (New.Add "b" NotEmpty "") "a" "b" NotEmpty "gone"
      (by decide)).2.2.2 ""⟩

/-- C9: `AddRequired name rule message` gives the same registry as
`Add name NotEmpty ""` followed by `Add name rule message`: the sequence of
`name` gains first the non-empty constraint (without override, so that it
reports "This value is required" on the empty string), then the given rule. -/
theorem AddRequired_eq_two_Adds
    (self : Rules) (name : String) (rule : Rule) (message : String) :
    self.AddRequired name rule message = (self.Add name NotEmpty "").Add name rule message
    ∧ (self.AddRequired name rule message).constraintsOf name =
        self.constraintsOf name ++
          [{ Rule := NotEmpty, Message := none }, newConstraint rule message]
    ∧ ({ Rule := NotEmpty, Message := none } : Constraint).report "" =
        some "This value is required" := by
  refine ⟨rfl, ?_, rfl⟩
  unfold Rules.AddRequired
  rw [constraintsOf_Add_same, constraintsOf_Add_same]
  simp [newConstraint]

/-- C10: `NotEmpty value` fails exactly when `value` is the empty string, its
error text is then "This value is required", and every non-empty string (one
made of blanks included) passes. -/
theorem NotEmpty_fails_iff_empty (value : String) :
    ((NotEmpty value).isSome = true ↔ value = "")
    ∧ (∀ t, NotEmpty value = some t ↔ value = "" ∧ t = "This value is required")
    ∧ (value ≠ "" → NotEmpty value = none) := by
  unfold NotEmpty
  by_cases h : value = ""
  · simp [h, eq_comm]
  · simp [h]

/-- C10 witness: a string of blanks is not empty, so it passes. -/
theorem NotEmpty_fails_iff_empty_witness :
    " \t " ≠ "" ∧ NotEmpty " \t " = none :=
  ⟨by decide, (NotEmpty_fails_iff_empty " \t ").2.2 (by decide)⟩

/-! ## Keys of maps built by assignment -/

theorem mapGet_eq_none_iff {V : Type} (m : GoMap V) (k : String) :
    mapGet m k = none ↔ k ∉ mapKeys m := by
  rw [← mapGet_isSome_iff]
  cases mapGet m k <;> simp

theorem mapKeys_mapSet {V : Type} (m : GoMap V) (k : String) (v : V) :
    mapKeys (mapSet m k v) = if k ∈ mapKeys m then mapKeys m else mapKeys m ++ [k] := by
  induction m with
  | nil => simp [mapSet, mapKeys]
  | cons hd tl ih =>
    obtain ⟨k0, v0⟩ := hd
    simp only [mapKeys] at ih
    by_cases h0 : k0 = k
    · subst h0
      simp [mapSet, mapKeys]
    · have h1 : ¬ k = k0 := fun h => h0 h.symm
      by_cases hmem : k ∈ List.map Prod.fst tl
      · simp [mapSet, mapKeys, h0, h1, ih, hmem]
      · simp [mapSet, mapKeys, h0, h1, ih, hmem]

theorem nodup_mapKeys_mapSet {V : Type} (m : GoMap V) (k : String) (v : V)
    (h : (mapKeys m).Nodup) : (mapKeys (mapSet m k v)).Nodup := by
  rw [mapKeys_mapSet]
  by_cases hmem : k ∈ mapKeys m
  · simpa [hmem] using h
  · simp only [hmem, if_false]
    rw [List.nodup_append]
    refine ⟨h, List.nodup_singleton k, ?_⟩
    intro a ha hb
    simp only [List.mem_singleton] at hb
    subst hb
    exact hmem ha

theorem nodup_mapKeys_mapMerge {V : Type} (e m : GoMap V) (h : (mapKeys m).Nodup) :
    (mapKeys (mapMerge m e)).Nodup := by
  induction e generalizing m with
  | nil => simpa [mapMerge] using h
  | cons hd tl ih =>
    have := ih (mapSet m hd.1 hd.2) (nodup_mapKeys_mapSet m hd.1 hd.2 h)
    simpa [mapMerge] using this

theorem mapGet_mapMerge {V : Type} (e m : GoMap V) (he : (mapKeys e).Nodup) (k : String) :
    mapGet (mapMerge m e) k = (mapGet e k).or (mapGet m k) := by
  induction e generalizing m with
  | nil => simp [mapMerge, mapGet]
  | cons hd tl ih =>
    obtain ⟨k0, v0⟩ := hd
    have hnd : (mapKeys tl).Nodup ∧ k0 ∉ mapKeys tl := by
      simp only [mapKeys, List.map_cons, List.nodup_cons] at he
      exact ⟨he.2, he.1⟩
    have hstep : mapMerge m ((k0, v0) :: tl) = mapMerge (mapSet m k0 v0) tl := by
      simp [mapMerge]
    rw [hstep, ih _ hnd.1, mapGet_mapSet]
    by_cases hk : k0 = k
    · subst hk
      have hnone : mapGet tl k0 = none := (mapGet_eq_none_iff tl k0).2 hnd.2
      simp [mapGet, hnone]
    · simp [mapGet, hk]

/-! ## Leaves -/

theorem lastFailure_append (self : Rules) (l1 l2 : List (String × String)) (k : String) :
    lastFailure self (l1 ++ l2) k = (lastFailure self l2 k).or (lastFailure self l1 k) := by
  induction l1 with
  | nil => simp [lastFailure, Option.or_none]
  | cons hd tl ih =>
    obtain ⟨k0, s0⟩ := hd
    rw [List.cons_append, lastFailure, lastFailure, ih, Option.or_assoc]

theorem allValid_append (self : Rules) (l1 l2 : List (String × String)) :
    allValid self (l1 ++ l2) = (allValid self l1 && allValid self l2) := by
  simp [allValid, List.all_append]

theorem lastFailure_eq_none_of_allValid (self : Rules) (l : List (String × String))
    (h : allValid self l = true) (k : String) : lastFailure self l k = none := by
  induction l with
  | nil => simp [lastFailure]
  | cons hd tl ih =>
    obtain ⟨k0, s0⟩ := hd
    simp only [allValid, List.all_cons, Bool.and_eq_true] at h
    have htl : allValid self tl = true := by simpa [allValid] using h.2
    simp [lastFailure, ih htl, h.1]

/-! ## Equations of the record predicates -/

theorem fieldLeaves_nil (pre : String) : fieldLeaves pre [] = [] := by
  rw [fieldLeaves]

theorem fieldLeaves_str (pre : String) (sf : StructField) (b : Bool) (s : String)
    (rest : List (StructField × Value)) :
    fieldLeaves pre ((sf, .str b s) :: rest) = (pre ++ sf.Name, s) :: fieldLeaves pre rest := by
  rw [fieldLeaves]

theorem fieldLeaves_struct (pre : String) (sf : StructField)
    (fs rest : List (StructField × Value)) :
    fieldLeaves pre ((sf, .struct fs) :: rest) =
      fieldLeaves (pre ++ sf.Name ++ ".") fs ++ fieldLeaves pre rest := by
  rw [fieldLeaves, recordLeaves]

theorem fieldLeaves_ptr (pre : String) (sf : StructField) (e : Option Value)
    (rest : List (StructField × Value)) :
    fieldLeaves pre ((sf, .ptr e) :: rest) = fieldLeaves pre rest := by
  simp [fieldLeaves]

theorem fieldLeaves_other (pre : String) (sf : StructField)
    (rest : List (StructField × Value)) :
    fieldLeaves pre ((sf, .other) :: rest) = fieldLeaves pre rest := by
  simp [fieldLeaves]

theorem traversable_str (sf : StructField) (b : Bool) (s : String)
    (rest : List (StructField × Value)) :
    traversable ((sf, .str b s) :: rest) = ((sf.PkgPath == "") && b && traversable rest) := by
  rw [traversable]

theorem traversable_struct (sf : StructField) (fs rest : List (StructField × Value)) :
    traversable ((sf, .struct fs) :: rest) =
      ((sf.PkgPath == "") && traversable fs && traversable rest) := by
  rw [traversable, recordTraversable]

theorem traversable_ptr (sf : StructField) (e : Option Value)
    (rest : List (StructField × Value)) :
    traversable ((sf, .ptr e) :: rest) = traversable rest := by
  simp [traversable]

theorem traversable_other (sf : StructField) (rest : List (StructField × Value)) :
    traversable ((sf, .other) :: rest) = traversable rest := by
  simp [traversable]

theorem uniqueNames_cons (sf : StructField) (f : Value) (rest : List (StructField × Value)) :
    uniqueNames ((sf, f) :: rest) =
      (!(rest.any (fun p => p.1.Name == sf.Name)) && recordUniqueNames f && uniqueNames rest) := by
  rw [uniqueNames]

theorem recordUniqueNames_struct (fs : List (StructField × Value)) :
    recordUniqueNames (.struct fs) = uniqueNames fs := by
  rw [recordUniqueNames]

theorem dotFree_cons (sf : StructField) (f : Value) (rest : List (StructField × Value)) :
    dotFree ((sf, f) :: rest) =
      (!(sf.Name.data.contains '.') && recordDotFree f && dotFree rest) := by
  rw [dotFree]

theorem recordDotFree_struct (fs : List (StructField × Value)) :
    recordDotFree (.struct fs) = dotFree fs := by
  rw [recordDotFree]

/-! ## The loop of `validateStructWithKeyPrefix` -/

theorem validateStructWithKeyPrefix_struct (self : Rules) (pre : String)
    (fs : List (StructField × Value)) :
    self.validateStructWithKeyPrefix pre (.struct fs) = fieldLoop self pre fs (true, []) := by
  rw [Rules.validateStructWithKeyPrefix]

theorem fieldLoop_str (self : Rules) (pre : String) (sf : StructField) (isString : Bool)
    (s : String) (rest : List (StructField × Value)) (st : Bool × GoMap (List String)) :
    fieldLoop self pre ((sf, .str isString s) :: rest) st =
      if sf.PkgPath ≠ "" then none else
      if isString = false then none else
      if (self.ValidateKeyValue (pre ++ sf.Name) s).1 = false
      then fieldLoop self pre rest
        (false, mapSet st.2 (pre ++ sf.Name) (self.ValidateKeyValue (pre ++ sf.Name) s).2)
      else fieldLoop self pre rest st := by
  rw [fieldLoop]
  cases hp : (self.ValidateKeyValue (pre ++ sf.Name) s).1 <;> simp [hp]

theorem fieldLoop_struct (self : Rules) (pre : String) (sf : StructField)
    (fs rest : List (StructField × Value)) (st : Bool × GoMap (List String)) :
    fieldLoop self pre ((sf, .struct fs) :: rest) st =
      if sf.PkgPath ≠ "" then none else
      match fieldLoop self (pre ++ sf.Name ++ ".") fs (true, []) with
      | none => none
      | some out =>
        if out.1 = false then fieldLoop self pre rest (false, mapMerge st.2 out.2)
        else fieldLoop self pre rest st := by
  rw [fieldLoop, validateStructWithKeyPrefix_struct]
  cases hn : fieldLoop self (pre ++ sf.Name ++ ".") fs (true, []) with
  | none => simp
  | some out =>
    obtain ⟨p, e⟩ := out
    cases p <;> simp

theorem fieldLoop_ptr (self : Rules) (pre : String) (sf : StructField) (e : Option Value)
    (rest : List (StructField × Value)) (st : Bool × GoMap (List String)) :
    fieldLoop self pre ((sf, .ptr e) :: rest) st = fieldLoop self pre rest st := by
  simp [fieldLoop]

theorem fieldLoop_other (self : Rules) (pre : String) (sf : StructField)
    (rest : List (StructField × Value)) (st : Bool × GoMap (List String)) :
    fieldLoop self pre ((sf, .other) :: rest) st = fieldLoop self pre rest st := by
  simp [fieldLoop]

/-- A traversable record is walked to the end: the loop returns a state. -/
theorem fieldLoop_isSome (self : Rules) :
    ∀ (fs : List (StructField × Value)) (pre : String) (st : Bool × GoMap (List String)),
      traversable fs = true → ∃ out, fieldLoop self pre fs st = some out
  | [], pre, st, _ => ⟨st, by simp [fieldLoop]⟩
  | (sf, .str isString s) :: rest, pre, st, h => by
    simp only [traversable_str, traversable_struct, traversable_ptr, traversable_other, Bool.and_eq_true, beq_iff_eq] at h
    obtain ⟨⟨h1, h2⟩, h3⟩ := h
    rw [fieldLoop_str]
    simp only [h1, h2, ne_eq, not_true_eq_false, if_false, Bool.true_eq_false]
    split
    · exact fieldLoop_isSome self rest pre _ h3
    · exact fieldLoop_isSome self rest pre _ h3
  | (sf, .struct fs) :: rest, pre, st, h => by
    simp only [traversable_str, traversable_struct, traversable_ptr, traversable_other, Bool.and_eq_true, beq_iff_eq] at h
    obtain ⟨⟨h1, h2⟩, h3⟩ := h
    rw [fieldLoop_struct]
    obtain ⟨out, hout⟩ := fieldLoop_isSome self fs (pre ++ sf.Name ++ ".") (true, []) h2
    simp only [h1, ne_eq, not_true_eq_false, if_false, hout]
    split
    · exact fieldLoop_isSome self rest pre _ h3
    · exact fieldLoop_isSome self rest pre _ h3
  | (sf, .ptr e) :: rest, pre, st, h => by
    simp only [traversable_str, traversable_struct, traversable_ptr, traversable_other] at h
    rw [fieldLoop_ptr]
    exact fieldLoop_isSome self rest pre _ h
  | (sf, .other) :: rest, pre, st, h => by
    simp only [traversable_str, traversable_struct, traversable_ptr, traversable_other] at h
    rw [fieldLoop_other]
    exact fieldLoop_isSome self rest pre _ h

/-- What the loop computes when it returns: validity is the conjunction over
the leaves, the keys of the message map stay distinct, and the entry of a
path is the message list of its last failing leaf, or else the entry the
map had before. -/
theorem fieldLoop_spec (self : Rules) :
    ∀ (fs : List (StructField × Value)) (pre : String)
      (st out : Bool × GoMap (List String)),
      fieldLoop self pre fs st = some out → (mapKeys st.2).Nodup →
        out.1 = (st.1 && allValid self (fieldLeaves pre fs))
        ∧ (mapKeys out.2).Nodup
        ∧ ∀ k, mapGet out.2 k = (lastFailure self (fieldLeaves pre fs) k).or (mapGet st.2 k)
  | [], pre, st, out, h, hnd => by
    simp only [fieldLoop, Option.some.injEq] at h
    subst h
    simp [fieldLeaves_nil, fieldLeaves_str, fieldLeaves_struct, fieldLeaves_ptr, fieldLeaves_other, allValid, lastFailure, hnd]
  | (sf, .str isString s) :: rest, pre, st, out, h, hnd => by
    rw [fieldLoop_str] at h
    by_cases h1 : sf.PkgPath ≠ ""
    · simp [h1] at h
    by_cases h2 : isString = false
    · simp [h2] at h
    simp only [h1, h2, if_false] at h
    by_cases hp : (self.ValidateKeyValue (pre ++ sf.Name) s).1 = false
    · simp only [hp, if_true] at h
      obtain ⟨ha, hb, hc⟩ := fieldLoop_spec self rest pre _ out h
        (nodup_mapKeys_mapSet st.2 _ _ hnd)
      refine ⟨?_, hb, ?_⟩
      · simp [ha, fieldLeaves_nil, fieldLeaves_str, fieldLeaves_struct, fieldLeaves_ptr, fieldLeaves_other, allValid, hp]
      · intro k
        rw [hc k, fieldLeaves_str, lastFailure, Option.or_assoc]
        simp only [mapGet_mapSet, hp, and_true]
        by_cases hk : pre ++ sf.Name = k <;> simp [hk]
    · simp only [hp, if_false] at h
      obtain ⟨ha, hb, hc⟩ := fieldLoop_spec self rest pre st out h hnd
      have hp' : (self.ValidateKeyValue (pre ++ sf.Name) s).1 = true := by
        simpa using hp
      refine ⟨?_, hb, ?_⟩
      · simp [ha, fieldLeaves_nil, fieldLeaves_str, fieldLeaves_struct, fieldLeaves_ptr, fieldLeaves_other, allValid, hp']
      · intro k
        rw [hc k, fieldLeaves_str, lastFailure]
        simp [hp']
  | (sf, .struct fs) :: rest, pre, st, out, h, hnd => by
    rw [fieldLoop_struct] at h
    by_cases h1 : sf.PkgPath ≠ ""
    · simp [h1] at h
    simp only [h1, if_false] at h
    cases hn : fieldLoop self (pre ++ sf.Name ++ ".") fs (true, []) with
    | none => simp [hn] at h
    | some outn =>
      simp only [hn] at h
      obtain ⟨na, nb, nc⟩ := fieldLoop_spec self fs (pre ++ sf.Name ++ ".") (true, []) outn hn
        (by simp [mapKeys])
      simp only [Bool.true_and] at na
      by_cases hp : outn.1 = false
      · simp only [hp, if_true] at h
        obtain ⟨ha, hb, hc⟩ := fieldLoop_spec self rest pre _ out h
          (nodup_mapKeys_mapMerge outn.2 st.2 hnd)
        have hfalse : allValid self (fieldLeaves (pre ++ sf.Name ++ ".") fs) = false := by
          rw [← na, hp]
        refine ⟨?_, hb, ?_⟩
        · simp [ha, fieldLeaves_nil, fieldLeaves_str, fieldLeaves_struct, fieldLeaves_ptr, fieldLeaves_other, allValid_append, hfalse]
        · intro k
          rw [hc k, fieldLeaves_struct, lastFailure_append, mapGet_mapMerge _ _ nb, nc k]
          simp [mapGet, Option.or_none, Option.or_assoc]
      · simp only [hp, if_false] at h
        obtain ⟨ha, hb, hc⟩ := fieldLoop_spec self rest pre st out h hnd
        have htrue : allValid self (fieldLeaves (pre ++ sf.Name ++ ".") fs) = true := by
          rw [← na]
          simpa using hp
        refine ⟨?_, hb, ?_⟩
        · simp [ha, fieldLeaves_nil, fieldLeaves_str, fieldLeaves_struct, fieldLeaves_ptr, fieldLeaves_other, allValid_append, htrue]
        · intro k
          rw [hc k, fieldLeaves_struct, lastFailure_append,
            lastFailure_eq_none_of_allValid self _ htrue k, Option.or_none]
  | (sf, .ptr e) :: rest, pre, st, out, h, hnd => by
    rw [fieldLoop_ptr] at h
    simpa [fieldLeaves_nil, fieldLeaves_str, fieldLeaves_struct, fieldLeaves_ptr, fieldLeaves_other] using fieldLoop_spec self rest pre st out h hnd
  | (sf, .other) :: rest, pre, st, out, h, hnd => by
    rw [fieldLoop_other] at h
    simpa [fieldLeaves_nil, fieldLeaves_str, fieldLeaves_struct, fieldLeaves_ptr, fieldLeaves_other] using fieldLoop_spec self rest pre st out h hnd

/-! ## Dotted paths are distinct -/

theorem dotFree_mem : ∀ (fs : List (StructField × Value)), dotFree fs = true →
    ∀ p ∈ fs, '.' ∉ p.1.Name.data
  | [], _, p, hp => by simp at hp
  | (sf, v) :: rest, h, p, hp => by
    have hsplit : '.' ∉ sf.Name.data ∧ dotFree rest = true := by
      cases v <;> simp [dotFree_cons, recordDotFree_struct] at h <;> simp [h]
    rcases List.mem_cons.1 hp with hp | hp
    · subst hp
      exact hsplit.1
    · exact dotFree_mem rest hsplit.2 p hp

theorem uniqueNames_head : ∀ (sf : StructField) (v : Value) (rest : List (StructField × Value)),
    uniqueNames ((sf, v) :: rest) = true →
      (∀ p ∈ rest, p.1.Name ≠ sf.Name) ∧ uniqueNames rest = true := by
  intro sf v rest h
  cases v <;> simp [uniqueNames_cons, recordUniqueNames_struct] at h <;>
    first
    | exact ⟨fun p hp => h.1 p.1 p.2 hp, h.2⟩
    | exact ⟨fun p hp => h.1.1 p.1 p.2 hp, h.2⟩

/-- Two dot-free names followed by nothing or by a dotted rest agree when the
whole character sequences agree. -/
theorem name_eq_of_append_eq : ∀ (a b ta tb : List Char), '.' ∉ a → '.' ∉ b →
    (ta = [] ∨ ∃ x, ta = '.' :: x) → (tb = [] ∨ ∃ x, tb = '.' :: x) →
    a ++ ta = b ++ tb → a = b
  | [], [], _, _, _, _, _, _, _ => rfl
  | [], c :: b, ta, tb, _, hb, hta, _, h => by
    exfalso
    rcases hta with hta | ⟨x, hta⟩
    · subst hta
      simp at h
    · subst hta
      simp only [List.nil_append, List.cons_append, List.cons.injEq] at h
      exact hb (by simp [← h.1])
  | c :: a, [], ta, tb, ha, _, _, htb, h => by
    exfalso
    rcases htb with htb | ⟨x, htb⟩
    · subst htb
      simp at h
    · subst htb
      simp only [List.nil_append, List.cons_append, List.cons.injEq] at h
      exact ha (by simp [h.1])
  | c :: a, d :: b, ta, tb, ha, hb, hta, htb, h => by
    simp only [List.cons_append, List.cons.injEq] at h
    have ha' : '.' ∉ a := fun hm => ha (List.mem_cons_of_mem _ hm)
    have hb' : '.' ∉ b := fun hm => hb (List.mem_cons_of_mem _ hm)
    rw [h.1, name_eq_of_append_eq a b ta tb ha' hb' hta htb h.2]

theorem path_name_eq (pre n1 n2 t1 t2 : String) (h1 : '.' ∉ n1.data) (h2 : '.' ∉ n2.data)
    (ht1 : t1.data = [] ∨ ∃ x, t1.data = '.' :: x)
    (ht2 : t2.data = [] ∨ ∃ x, t2.data = '.' :: x)
    (h : pre ++ n1 ++ t1 = pre ++ n2 ++ t2) : n1 = n2 := by
  have hd := congrArg String.data h
  simp only [String.data_append, List.append_assoc] at hd
  have hd' := List.append_cancel_left hd
  exact String.ext (name_eq_of_append_eq _ _ _ _ h1 h2 ht1 ht2 hd')

/-- Every path of a leaf is the prefix, then the name of a field of the
record, then nothing or a dotted rest. -/
theorem fieldLeaves_key_shape : ∀ (fs : List (StructField × Value)) (pre k : String),
    k ∈ (fieldLeaves pre fs).map Prod.fst →
      ∃ p ∈ fs, ∃ t : String, k = pre ++ p.1.Name ++ t ∧
        (t.data = [] ∨ ∃ x, t.data = '.' :: x)
  | [], pre, k, h => by simp [fieldLeaves_nil, fieldLeaves_str, fieldLeaves_struct, fieldLeaves_ptr, fieldLeaves_other] at h
  | (sf, .str isString s) :: rest, pre, k, h => by
    simp only [fieldLeaves_nil, fieldLeaves_str, fieldLeaves_struct, fieldLeaves_ptr, fieldLeaves_other, List.map_cons, List.mem_cons] at h
    rcases h with h | h
    · exact ⟨(sf, .str isString s), List.mem_cons_self _ _, "", by simp [h], Or.inl rfl⟩
    · obtain ⟨p, hp, t, ht⟩ := fieldLeaves_key_shape rest pre k h
      exact ⟨p, List.mem_cons_of_mem _ hp, t, ht⟩
  | (sf, .struct fs) :: rest, pre, k, h => by
    simp only [fieldLeaves_nil, fieldLeaves_str, fieldLeaves_struct, fieldLeaves_ptr, fieldLeaves_other, List.map_append, List.mem_append] at h
    rcases h with h | h
    · obtain ⟨p, _, t, ht, _⟩ := fieldLeaves_key_shape fs (pre ++ sf.Name ++ ".") k h
      refine ⟨(sf, .struct fs), List.mem_cons_self _ _, "." ++ (p.1.Name ++ t), ?_, Or.inr ?_⟩
      · rw [ht]
        simp only [String.append_assoc]
      · exact ⟨(p.1.Name ++ t).data, by simp [String.data_append]⟩
    · obtain ⟨p, hp, t, ht⟩ := fieldLeaves_key_shape rest pre k h
      exact ⟨p, List.mem_cons_of_mem _ hp, t, ht⟩
  | (sf, .ptr e) :: rest, pre, k, h => by
    simp only [fieldLeaves_nil, fieldLeaves_str, fieldLeaves_struct, fieldLeaves_ptr, fieldLeaves_other] at h
    obtain ⟨p, hp, t, ht⟩ := fieldLeaves_key_shape rest pre k h
    exact ⟨p, List.mem_cons_of_mem _ hp, t, ht⟩
  | (sf, .other) :: rest, pre, k, h => by
    simp only [fieldLeaves_nil, fieldLeaves_str, fieldLeaves_struct, fieldLeaves_ptr, fieldLeaves_other] at h
    obtain ⟨p, hp, t, ht⟩ := fieldLeaves_key_shape rest pre k h
    exact ⟨p, List.mem_cons_of_mem _ hp, t, ht⟩

/-- In a record with distinct dot-free field names no two leaves share a
dotted path. -/
theorem fieldLeaves_keys_nodup : ∀ (fs : List (StructField × Value)) (pre : String),
    uniqueNames fs = true → dotFree fs = true → ((fieldLeaves pre fs).map Prod.fst).Nodup
  | [], pre, _, _ => by simp [fieldLeaves_nil, fieldLeaves_str, fieldLeaves_struct, fieldLeaves_ptr, fieldLeaves_other]
  | (sf, .str isString s) :: rest, pre, hu, hd => by
    obtain ⟨hne, hur⟩ := uniqueNames_head _ _ _ hu
    have hdr : dotFree rest = true := by
      simp only [dotFree_cons, recordDotFree_struct, Bool.and_eq_true] at hd
      exact hd.2
    have hsf := dotFree_mem _ hd (sf, .str isString s) (List.mem_cons_self _ _)
    simp only [fieldLeaves_nil, fieldLeaves_str, fieldLeaves_struct, fieldLeaves_ptr, fieldLeaves_other, List.map_cons, List.nodup_cons]
    refine ⟨?_, fieldLeaves_keys_nodup rest pre hur hdr⟩
    intro hmem
    obtain ⟨p, hp, t, ht, htail⟩ := fieldLeaves_key_shape rest pre _ hmem
    have hp' := dotFree_mem _ hdr p hp
    have hkey : pre ++ sf.Name ++ "" = pre ++ p.1.Name ++ t := by
      rw [← ht]
      simp
    exact hne p hp (path_name_eq pre sf.Name p.1.Name "" t hsf hp' (Or.inl rfl) htail hkey).symm
  | (sf, .struct fs) :: rest, pre, hu, hd => by
    obtain ⟨hne, hur⟩ := uniqueNames_head _ _ _ hu
    have huf : uniqueNames fs = true := by
      simp only [uniqueNames_cons, recordUniqueNames_struct, Bool.and_eq_true] at hu
      exact hu.1.2
    have hd' : dotFree fs = true ∧ dotFree rest = true := by
      simp only [dotFree_cons, recordDotFree_struct, Bool.and_eq_true] at hd
      exact ⟨hd.1.2, hd.2⟩
    have hsf := dotFree_mem _ hd (sf, .struct fs) (List.mem_cons_self _ _)
    simp only [fieldLeaves_nil, fieldLeaves_str, fieldLeaves_struct, fieldLeaves_ptr, fieldLeaves_other, List.map_append]
    rw [List.nodup_append]
    refine ⟨fieldLeaves_keys_nodup fs _ huf hd'.1, fieldLeaves_keys_nodup rest pre hur hd'.2, ?_⟩
    intro k hk1 hk2
    obtain ⟨q, _, u, hu', _⟩ := fieldLeaves_key_shape fs (pre ++ sf.Name ++ ".") k hk1
    obtain ⟨p, hp, t, ht, htail⟩ := fieldLeaves_key_shape rest pre k hk2
    have hp' := dotFree_mem _ hd'.2 p hp
    have hkey : pre ++ sf.Name ++ ("." ++ (q.1.Name ++ u)) = pre ++ p.1.Name ++ t := by
      rw [← ht, hu']
      simp only [String.append_assoc]
    exact hne p hp (path_name_eq pre sf.Name p.1.Name _ t hsf hp'
      (Or.inr ⟨(q.1.Name ++ u).data, by simp [String.data_append]⟩) htail hkey).symm
  | (sf, .ptr e) :: rest, pre, hu, hd => by
    obtain ⟨_, hur⟩ := uniqueNames_head _ _ _ hu
    have hdr : dotFree rest = true := by
      simp only [dotFree_cons, recordDotFree_struct, Bool.and_eq_true] at hd
      exact hd.2
    simpa [fieldLeaves_nil, fieldLeaves_str, fieldLeaves_struct, fieldLeaves_ptr, fieldLeaves_other] using fieldLeaves_keys_nodup rest pre hur hdr
  | (sf, .other) :: rest, pre, hu, hd => by
    obtain ⟨_, hur⟩ := uniqueNames_head _ _ _ hu
    have hdr : dotFree rest = true := by
      simp only [dotFree_cons, recordDotFree_struct, Bool.and_eq_true] at hd
      exact hd.2
    simpa [fieldLeaves_nil, fieldLeaves_str, fieldLeaves_struct, fieldLeaves_ptr, fieldLeaves_other] using fieldLeaves_keys_nodup rest pre hur hdr

/-- With distinct paths, a path has a last failing leaf with message list
`errs` exactly when one of its leaves fails with that list. -/
theorem lastFailure_eq_some_iff (self : Rules) (l : List (String × String))
    (hnd : (l.map Prod.fst).Nodup) (k : String) :
    ∀ errs : List String, lastFailure self l k = some errs ↔
      ∃ s, (k, s) ∈ l ∧ self.ValidateKeyValue k s = (false, errs) := by
  induction l with
  | nil => simp [lastFailure]
  | cons hd tl ih =>
    intro errs
    obtain ⟨k0, s0⟩ := hd
    simp only [List.map_cons, List.nodup_cons] at hnd
    have ih' := ih hnd.2
    rw [lastFailure, Option.or_eq_some, ih' errs]
    constructor
    · rintro (⟨s, hs, hv⟩ | ⟨hnone, hif⟩)
      · exact ⟨s, List.mem_cons_of_mem _ hs, hv⟩
      · by_cases hc : k0 = k ∧ (self.ValidateKeyValue k0 s0).1 = false
        · rw [if_pos hc] at hif
          obtain ⟨hk, hf⟩ := hc
          subst hk
          refine ⟨s0, List.mem_cons_self _ _, Prod.ext hf ?_⟩
          simpa using hif
        · rw [if_neg hc] at hif
          cases hif
    · rintro ⟨s, hs, hv⟩
      rcases List.mem_cons.1 hs with hs | hs
      · right
        simp only [Prod.mk.injEq] at hs
        obtain ⟨hk, hs0⟩ := hs
        subst hk hs0
        constructor
        · cases hl : lastFailure self tl k with
          | none => rfl
          | some e =>
            exfalso
            obtain ⟨s', hs', _⟩ := (ih' e).1 hl
            exact hnd.1 (List.mem_map.2 ⟨(k, s'), hs', rfl⟩)
        · simp [hv]
      · left
        exact ⟨s, hs, hv⟩

/-! ## Claims about `ValidateStruct` -/

theorem ValidateStruct_eq_fieldLoop (self : Rules) (s : Value)
    (fields : List (StructField × Value)) (h : recordFields s = some fields) :
    self.ValidateStruct s = fieldLoop self "" fields (true, []) := by
  unfold Rules.ValidateStruct
  cases s with
  | str b x => simp [recordFields] at h
  | other => simp [recordFields] at h
  | struct fs =>
    simp only [recordFields, Option.some.injEq] at h
    subst h
    rw [Rules.validateStructWithKeyPrefix]
  | ptr e =>
    cases e with
    | none => simp [recordFields] at h
    | some v =>
      cases v with
      | struct fs =>
        simp only [recordFields, Option.some.injEq] at h
        subst h
        rw [Rules.validateStructWithKeyPrefix]
      | str b x => simp [recordFields] at h
      | ptr e => simp [recordFields] at h
      | other => simp [recordFields] at h

/-- C6 (amended): for a record, passed by value or through a pointer, whose
string and nested record fields are all exported, whose string fields have
the type `string` itself, and whose field names are distinct within each
record and contain no '.', `ValidateStruct` returns a message map keyed by
dotted paths (`pre ++ name` for a string field, nested records entered with
`pre ++ name ++ "."`): it has an entry under a path exactly when the string
leaf at that path fails a constraint registered under that path, and the
entry is the message list `ValidateKeyValue` gives for that leaf. -/
theorem ValidateStruct_flattens_to_dotted_paths (self : Rules) (s : Value)
    (fields : List (StructField × Value)) (hrec : recordFields s = some fields)
    (htrav : traversable fields = true) (huniq : uniqueNames fields = true)
    (hdot : dotFree fields = true) :
    DottedPathsResult self s fields := by
  obtain ⟨out, hout⟩ := fieldLoop_isSome self fields "" (true, []) htrav
  obtain ⟨_, _, hget⟩ := fieldLoop_spec self fields "" (true, []) out hout (by simp [mapKeys])
  refine ⟨out.1, out.2, ?_, ?_⟩
  · rw [ValidateStruct_eq_fieldLoop self s fields hrec, hout]
  · intro k errs
    rw [hget k]
    simp only [mapGet, Option.or_none]
    exact lastFailure_eq_some_iff self _ (fieldLeaves_keys_nodup fields "" huniq hdot) k errs

/-- C6 witness: a record with a string field, a nested record and a field of
another kind, validated against a constraint on "Address.City". -/
theorem ValidateStruct_flattens_to_dotted_paths_witness :
    DottedPathsResult (New.Add "Address.City" NotEmpty "")
      (.struct [(⟨"Name", ""⟩, .str true "bob"),
        (⟨"Address", ""⟩, .struct [(⟨"City", ""⟩, .str true "")]),
        (⟨"Age", ""⟩, .other)])
      [(⟨"Name", ""⟩, .str true "bob"),
        (⟨"Address", ""⟩, .struct [(⟨"City", ""⟩, .str true "")]),
        (⟨"Age", ""⟩, .other)] :=
  ValidateStruct_flattens_to_dotted_paths (New.Add "Address.City" NotEmpty "")
    (.struct [(⟨"Name", ""⟩, .str true "bob"),
        (⟨"Address", ""⟩, .struct [(⟨"City", ""⟩, .str true "")]),
        (⟨"Age", ""⟩, .other)])
    [(⟨"Name", ""⟩, .str true "bob"),
        (⟨"Address", ""⟩, .struct [(⟨"City", ""⟩, .str true "")]),
        (⟨"Age", ""⟩, .other)]
    rfl (by decide) (by decide) (by decide)

/-- C6 counterexample: with distinct field names alone the claim fails.
(1) A record with an unexported string field `city` makes the traversal
panic at `f.Interface()`.  (2) A record with an exported field whose type is a
defined string type makes it panic at the assertion `.(string)`.  (3) When a
name may contain '.', the leaves `A.B = "1"` (inside the record `A`) and
`A.B = "2"` (a field named "A.B") share a path; both fail, and the map keeps
only the message list of the second. -/
theorem ValidateStruct_flattens_to_dotted_paths_counterexample :
    (uniqueNames [(⟨"city", "main"⟩, .str true "")] = true
      ∧ New.ValidateStruct (.struct [(⟨"city", "main"⟩, .str true "")]) = none
      ∧ ¬ DottedPathsResult New (.struct [(⟨"city", "main"⟩, .str true "")])
          [(⟨"city", "main"⟩, .str true "")])
    ∧ (uniqueNames [(⟨"Email", ""⟩, .str false "")] = true
      ∧ New.ValidateStruct (.struct [(⟨"Email", ""⟩, .str false "")]) = none
      ∧ ¬ DottedPathsResult New (.struct [(⟨"Email", ""⟩, .str false "")])
          [(⟨"Email", ""⟩, .str false "")])
    ∧ (uniqueNames [(⟨"A", ""⟩, .struct [(⟨"B", ""⟩, .str true "1")]),
          (⟨"A.B", ""⟩, .str true "2")] = true
      ∧ (New.Add "A.B" (fun v => some ("bad " ++ v)) "").ValidateStruct
          (.struct [(⟨"A", ""⟩, .struct [(⟨"B", ""⟩, .str true "1")]),
            (⟨"A.B", ""⟩, .str true "2")]) = some (false, [("A.B", ["bad 2"])])
      ∧ (New.Add "A.B" (fun v => some ("bad " ++ v)) "").ValidateKeyValue "A.B" "1" =
          (false, ["bad 1"])
      ∧ ¬ DottedPathsResult (New.Add "A.B" (fun v => some ("bad " ++ v)) "")
          (.struct [(⟨"A", ""⟩, .struct [(⟨"B", ""⟩, .str true "1")]),
            (⟨"A.B", ""⟩, .str true "2")])
          [(⟨"A", ""⟩, .struct [(⟨"B", ""⟩, .str true "1")]),
            (⟨"A.B", ""⟩, .str true "2")]) := by
  have hcity : New.ValidateStruct (.struct [(⟨"city", "main"⟩, .str true "")]) = none := by
    decide
  have hmail : New.ValidateStruct (.struct [(⟨"Email", ""⟩, .str false "")]) = none := by
    decide
  have hdot : (New.Add "A.B" (fun v => some ("bad " ++ v)) "").ValidateStruct
      (.struct [(⟨"A", ""⟩, .struct [(⟨"B", ""⟩, .str true "1")]),
        (⟨"A.B", ""⟩, .str true "2")]) = some (false, [("A.B", ["bad 2"])]) := by
    decide
  have hleaf : (New.Add "A.B" (fun v => some ("bad " ++ v)) "").ValidateKeyValue "A.B" "1" =
      (false, ["bad 1"]) := by
    decide
  refine ⟨⟨by decide, hcity, ?_⟩, ⟨by decide, hmail, ?_⟩, ⟨by decide, hdot, hleaf, ?_⟩⟩
  · rintro ⟨valid, messages, h, _⟩
    rw [hcity] at h
    cases h
  · rintro ⟨valid, messages, h, _⟩
    rw [hmail] at h
    cases h
  · rintro ⟨valid, messages, h, hiff⟩
    rw [hdot] at h
    simp only [Option.some.injEq, Prod.mk.injEq] at h
    obtain ⟨_, hm⟩ := h
    subst hm
    have h1 := (hiff "A.B" ["bad 1"]).2 ⟨"1", by decide, hleaf⟩
    revert h1
    decide

/-! ## Lookups in maps with distinct keys -/

theorem mem_of_mapGet {V : Type} (m : GoMap V) (k : String) (v : V)
    (h : mapGet m k = some v) : (k, v) ∈ m := by
  induction m with
  | nil => simp [mapGet] at h
  | cons hd tl ih =>
    obtain ⟨k0, v0⟩ := hd
    by_cases h0 : k0 = k
    · subst h0
      simp only [mapGet, if_true, Option.some.injEq] at h
      subst h
      exact List.mem_cons_self _ _
    · simp only [mapGet, h0, if_false] at h
      exact List.mem_cons_of_mem _ (ih h)

theorem mapGet_of_mem {V : Type} (m : GoMap V) (hnd : (mapKeys m).Nodup) (k : String) (v : V)
    (h : (k, v) ∈ m) : mapGet m k = some v := by
  induction m with
  | nil => simp at h
  | cons hd tl ih =>
    obtain ⟨k0, v0⟩ := hd
    simp only [mapKeys, List.map_cons, List.nodup_cons] at hnd
    rcases List.mem_cons.1 h with h | h
    · simp only [Prod.mk.injEq] at h
      obtain ⟨hk, hv⟩ := h
      subst hk hv
      simp [mapGet]
    · have hne : ¬ k0 = k := by
        intro h0
        subst h0
        exact hnd.1 (List.mem_map.2 ⟨(k0, v), h, rfl⟩)
      simp only [mapGet, hne, if_false]
      exact ih hnd.2 h

theorem mapGet_perm {V : Type} (m1 m2 : GoMap V) (hp : m1.Perm m2)
    (hnd : (mapKeys m1).Nodup) (k : String) : mapGet m1 k = mapGet m2 k := by
  have hnd2 : (mapKeys m2).Nodup := (List.Perm.nodup_iff (hp.map Prod.fst)).1 hnd
  apply Option.ext
  intro v
  constructor
  · intro h
    exact mapGet_of_mem m2 hnd2 k v (hp.mem_iff.1 (mem_of_mapGet m1 k v h))
  · intro h
    exact mapGet_of_mem m1 hnd k v (hp.mem_iff.2 (mem_of_mapGet m2 k v h))

/-! ## Closed forms of `Validate` -/

theorem Validate_valid_eq (self : Rules) (params : GoMap String) :
    (self.Validate params).1 =
      (mapKeys params).all
        (fun k => (self.ValidateKeyValue k ((mapGet params k).getD "")).1) := by
  unfold Rules.Validate
  rw [foldl_validateParamStep_valid]
  simp

theorem Validate_get (self : Rules) (params : GoMap String) (k : String) :
    mapGet (self.Validate params).2 k =
      if k ∈ mapKeys params ∧ (self.ValidateKeyValue k ((mapGet params k).getD "")).1 = false
      then some (self.ValidateKeyValue k ((mapGet params k).getD "")).2
      else none := by
  unfold Rules.Validate
  rw [foldl_validateParamStep_get]
  simp [mapGet]

theorem Validate_congr (r1 r2 : Rules) (params : GoMap String)
    (h : ∀ k ∈ mapKeys params, mapGet r1.Map k = mapGet r2.Map k) :
    r1.Validate params = r2.Validate params := by
  unfold Rules.Validate
  apply List.foldl_ext
  intro st k hk
  rw [validateParamStep_eq, validateParamStep_eq,
    ValidateKeyValue_congr r1 r2 k (h k hk) ((mapGet params k).getD "")]

theorem mapGet_AddRequired_other (self : Rules) (name other : String) (rule : Rule)
    (message : String) (h : name ≠ other) :
    mapGet (self.AddRequired name rule message).Map other = mapGet self.Map other := by
  unfold Rules.AddRequired
  rw [mapGet_Add_other _ name other rule message h, mapGet_Add_other _ name other _ _ h]

/-! ## Claims about `Validate` -/

/-- C11: `Validate` checks only the keys of `params`: every key of the message
map is a key of `params`; a field registered with `AddRequired` whose key is
missing from `params` changes nothing in the result and has no entry; and
the empty map is valid with an empty message map. -/
theorem Validate_ignores_absent_fields (self : Rules) (params : GoMap String) :
    (∀ k, k ∈ mapKeys (self.Validate params).2 → k ∈ mapKeys params)
    ∧ (∀ (name : String) (rule : Rule) (message : String), name ∉ mapKeys params →
        (self.AddRequired name rule message).Validate params = self.Validate params
        ∧ mapGet ((self.AddRequired name rule message).Validate params).2 name = none)
    ∧ self.Validate [] = (true, []) := by
  refine ⟨?_, ?_, rfl⟩
  · intro k hk
    have hsome := (mapGet_isSome_iff _ k).2 hk
    rw [Validate_get] at hsome
    by_cases hc : k ∈ mapKeys params ∧
        (self.ValidateKeyValue k ((mapGet params k).getD "")).1 = false
    · exact hc.1
    · rw [if_neg hc] at hsome
      simp at hsome
  · intro name rule message hname
    constructor
    · apply Validate_congr
      intro k hk
      have hne : name ≠ k := by
        intro h
        subst h
        exact hname hk
      exact mapGet_AddRequired_other self name k rule message hne
    · rw [Validate_get]
      simp [hname]

/-- C11 witness: "a" is registered required, `params` holds only "b". -/
theorem Validate_ignores_absent_fields_witness :
    "a" ∉ mapKeys [("b", "ok")]
    ∧ (New.AddRequired "a" NotEmpty "").Validate [("b", "ok")] = New.Validate [("b", "ok")]
    ∧ mapGet ((New.AddRequired "a" NotEmpty "").Validate [("b", "ok")]).2 "a" = none :=
  ⟨by decide,
   (Validate_ignores_absent_fields New [("b", "ok")]).2.1 "a" NotEmpty "" (by decide)⟩

/-- C12: the result of `Validate` does not depend on the order in which the
keys of `params` are visited: two enumerations of the same key/value pairs
with distinct keys give the same boolean and the same message map (the same
lookup result for every key). -/
theorem Validate_order_independent (self : Rules) (params1 params2 : GoMap String)
    (hperm : params1.Perm params2) (hnd : (mapKeys params1).Nodup) :
    (self.Validate params1).1 = (self.Validate params2).1
    ∧ ∀ k, mapGet (self.Validate params1).2 k = mapGet (self.Validate params2).2 k := by
  have hget : ∀ k, mapGet params1 k = mapGet params2 k := mapGet_perm _ _ hperm hnd
  have hkeys : ∀ k, k ∈ mapKeys params1 ↔ k ∈ mapKeys params2 :=
    fun k => (hperm.map Prod.fst).mem_iff
  constructor
  · rw [Validate_valid_eq, Validate_valid_eq, Bool.eq_iff_iff]
    simp only [List.all_eq_true]
    constructor
    · intro h k hk
      rw [← hget k]
      exact h k ((hkeys k).2 hk)
    · intro h k hk
      rw [hget k]
      exact h k ((hkeys k).1 hk)
  · intro k
    rw [Validate_get, Validate_get, hget k]
    by_cases hk : k ∈ mapKeys params1
    · simp [hk, (hkeys k).1 hk]
    · have hk2 : k ∉ mapKeys params2 := fun h => hk ((hkeys k).2 h)
      simp [hk, hk2]

/-- C12 witness: the two enumerations of the map with keys "a" and "b". -/
theorem Validate_order_independent_witness :
    ((New.Add "a" NotEmpty "").Validate [("a", ""), ("b", "ok")]).1 =
        ((New.Add "a" NotEmpty "").Validate [("b", "ok"), ("a", "")]).1
    ∧ ∀ k, mapGet ((New.Add "a" NotEmpty "").Validate [("a", ""), ("b", "ok")]).2 k =
        mapGet ((New.Add "a" NotEmpty "").Validate [("b", "ok"), ("a", "")]).2 k :=
  Validate_order_independent (New.Add "a" NotEmpty "") [("a", ""), ("b", "ok")]
    [("b", "ok"), ("a", "")] (List.Perm.swap _ _ _) (by decide)

/-! ## Skipped fields -/

theorem stripSkipped_str (sf : StructField) (b : Bool) (s : String)
    (rest : List (StructField × Value)) :
    stripSkipped ((sf, .str b s) :: rest) = (sf, .str b s) :: stripSkipped rest := by
  rw [stripSkipped]

theorem stripSkipped_struct (sf : StructField) (fs rest : List (StructField × Value)) :
    stripSkipped ((sf, .struct fs) :: rest) =
      (sf, .struct (stripSkipped fs)) :: stripSkipped rest := by
  rw [stripSkipped, recordStripSkipped]

theorem stripSkipped_ptr (sf : StructField) (e : Option Value)
    (rest : List (StructField × Value)) :
    stripSkipped ((sf, .ptr e) :: rest) = stripSkipped rest := by
  simp [stripSkipped]

theorem stripSkipped_other (sf : StructField) (rest : List (StructField × Value)) :
    stripSkipped ((sf, .other) :: rest) = stripSkipped rest := by
  simp [stripSkipped]

/-- The loop gives the same outcome on a record and on the record without its
skipped fields. -/
theorem fieldLoop_stripSkipped (self : Rules) :
    ∀ (fs : List (StructField × Value)) (pre : String) (st : Bool × GoMap (List String)),
      fieldLoop self pre (stripSkipped fs) st = fieldLoop self pre fs st
  | [], pre, st => by rw [stripSkipped]
  | (sf, .str b s) :: rest, pre, st => by
    have ihr := fieldLoop_stripSkipped self rest pre
    rw [stripSkipped_str, fieldLoop_str, fieldLoop_str]
    simp only [ihr]
  | (sf, .struct fs) :: rest, pre, st => by
    have ihr := fieldLoop_stripSkipped self rest pre
    have ihn := fieldLoop_stripSkipped self fs (pre ++ sf.Name ++ ".") (true, [])
    rw [stripSkipped_struct, fieldLoop_struct, fieldLoop_struct, ihn]
    simp only [ihr]
  | (sf, .ptr e) :: rest, pre, st => by
    rw [stripSkipped_ptr, fieldLoop_ptr]
    exact fieldLoop_stripSkipped self rest pre st
  | (sf, .other) :: rest, pre, st => by
    rw [stripSkipped_other, fieldLoop_other]
    exact fieldLoop_stripSkipped self rest pre st

theorem fieldLoop_skipped (self : Rules) (pre : String) (sf : StructField) (v : Value)
    (hv : skippedKind v = true) (rest : List (StructField × Value))
    (st : Bool × GoMap (List String)) :
    fieldLoop self pre ((sf, v) :: rest) st = fieldLoop self pre rest st := by
  cases v with
  | str b s => simp [skippedKind] at hv
  | struct fs => simp [skippedKind] at hv
  | ptr e => exact fieldLoop_ptr self pre sf e rest st
  | other => exact fieldLoop_other self pre sf rest st

theorem fieldLoop_insert_skipped (self : Rules) (pre : String) (sf : StructField) (v : Value)
    (hv : skippedKind v = true) (l2 : List (StructField × Value)) :
    ∀ (l1 : List (StructField × Value)) (st : Bool × GoMap (List String)),
      fieldLoop self pre (l1 ++ (sf, v) :: l2) st = fieldLoop self pre (l1 ++ l2) st
  | [], st => by
    simpa using fieldLoop_skipped self pre sf v hv l2 st
  | (sf1, .str b s) :: l1, st => by
    have ih := fieldLoop_insert_skipped self pre sf v hv l2 l1
    rw [List.cons_append, List.cons_append, fieldLoop_str, fieldLoop_str]
    simp only [ih]
  | (sf1, .struct fs) :: l1, st => by
    have ih := fieldLoop_insert_skipped self pre sf v hv l2 l1
    rw [List.cons_append, List.cons_append, fieldLoop_struct, fieldLoop_struct]
    simp only [ih]
  | (sf1, .ptr e) :: l1, st => by
    rw [List.cons_append, List.cons_append, fieldLoop_ptr, fieldLoop_ptr]
    exact fieldLoop_insert_skipped self pre sf v hv l2 l1 st
  | (sf1, .other) :: l1, st => by
    rw [List.cons_append, List.cons_append, fieldLoop_other, fieldLoop_other]
    exact fieldLoop_insert_skipped self pre sf v hv l2 l1 st

/-- C13: a field whose kind is neither string nor struct is skipped: at any
nesting level (any key prefix) and any position, a record with such a field
gives the same outcome as the record without it, whatever the registry holds
under its name; and removing all such fields at every depth leaves the
outcome of `ValidateStruct` unchanged. -/
theorem ValidateStruct_skips_other_kinds (self : Rules) :
    (∀ (pre : String) (l1 l2 : List (StructField × Value)) (sf : StructField) (v : Value),
        skippedKind v = true →
        self.validateStructWithKeyPrefix pre (.struct (l1 ++ (sf, v) :: l2)) =
          self.validateStructWithKeyPrefix pre (.struct (l1 ++ l2)))
    ∧ (∀ s, self.ValidateStruct (stripRecord s) = self.ValidateStruct s)
    ∧ (∀ s1 s2, stripRecord s1 = stripRecord s2 →
        self.ValidateStruct s1 = self.ValidateStruct s2) := by
  have hstrip : ∀ s, self.ValidateStruct (stripRecord s) = self.ValidateStruct s := ?_
  · refine ⟨?_, hstrip, ?_⟩
    · intro pre l1 l2 sf v hv
      rw [validateStructWithKeyPrefix_struct, validateStructWithKeyPrefix_struct]
      exact fieldLoop_insert_skipped self pre sf v hv l2 l1 (true, [])
    · intro s1 s2 h
      rw [← hstrip s1, ← hstrip s2, h]
  · intro s
    unfold Rules.ValidateStruct
    cases s with
    | str b x => rfl
    | other => rfl
    | struct fs =>
      rw [stripRecord, validateStructWithKeyPrefix_struct, validateStructWithKeyPrefix_struct]
      exact fieldLoop_stripSkipped self fs "" (true, [])
    | ptr e =>
      cases e with
      | none => rfl
      | some v =>
        cases v with
        | struct fs =>
          rw [stripRecord, Rules.validateStructWithKeyPrefix, Rules.validateStructWithKeyPrefix]
          exact fieldLoop_stripSkipped self fs "" (true, [])
        | str b x => rfl
        | ptr e => rfl
        | other => rfl

/-- C13 witness: a numeric field `Age` with a constraint registered under
"Age" changes nothing, and neither does a numeric field `Zip` inside the
nested record `Address`. -/
theorem ValidateStruct_skips_other_kinds_witness :
    (New.Add "Age" NotEmpty "").validateStructWithKeyPrefix ""
        (.struct ([(⟨"Name", ""⟩, .str true "bob")] ++ (⟨"Age", ""⟩, .other) :: [])) =
      (New.Add "Age" NotEmpty "").validateStructWithKeyPrefix ""
        (.struct ([(⟨"Name", ""⟩, .str true "bob")] ++ []))
    ∧ (New.Add "Address.Zip" NotEmpty "").ValidateStruct
        (.struct [(⟨"Address", ""⟩,
          .struct [(⟨"City", ""⟩, .str true ""), (⟨"Zip", ""⟩, .other)])]) =
      (New.Add "Address.Zip" NotEmpty "").ValidateStruct
        (.struct [(⟨"Address", ""⟩, .struct [(⟨"City", ""⟩, .str true "")])]) :=
  ⟨(ValidateStruct_skips_other_kinds (New.Add "Age" NotEmpty "")).1 ""
      [(⟨"Name", ""⟩, .str true "bob")] [] ⟨"Age", ""⟩ .other rfl,
   (ValidateStruct_skips_other_kinds (New.Add "Address.Zip" NotEmpty "")).2.2
      (.struct [(⟨"Address", ""⟩,
        .struct [(⟨"City", ""⟩, .str true ""), (⟨"Zip", ""⟩, .other)])])
      (.struct [(⟨"Address", ""⟩, .struct [(⟨"City", ""⟩, .str true "")])]) rfl⟩

/-! ## When the traversal returns -/

/-- The loop returns only on a traversable record. -/
theorem traversable_of_fieldLoop (self : Rules) :
    ∀ (fs : List (StructField × Value)) (pre : String)
      (st out : Bool × GoMap (List String)),
      fieldLoop self pre fs st = some out → traversable fs = true
  | [], _, _, _, _ => by rw [traversable]
  | (sf, .str b s) :: rest, pre, st, out, h => by
    rw [fieldLoop_str] at h
    by_cases h1 : sf.PkgPath ≠ ""
    · simp [h1] at h
    by_cases h2 : b = false
    · simp [h2] at h
    simp only [h1, h2, if_false] at h
    have hrest : traversable rest = true := by
      by_cases hp : (self.ValidateKeyValue (pre ++ sf.Name) s).1 = false
      · simp only [hp, if_true] at h
        exact traversable_of_fieldLoop self rest pre _ out h
      · simp only [hp, if_false] at h
        exact traversable_of_fieldLoop self rest pre _ out h
    have h1' : sf.PkgPath = "" := by simpa using h1
    have h2' : b = true := by simpa using h2
    simp [traversable_str, h1', h2', hrest]
  | (sf, .struct fs) :: rest, pre, st, out, h => by
    rw [fieldLoop_struct] at h
    by_cases h1 : sf.PkgPath ≠ ""
    · simp [h1] at h
    simp only [h1, if_false] at h
    have h1' : sf.PkgPath = "" := by simpa using h1
    cases hn : fieldLoop self (pre ++ sf.Name ++ ".") fs (true, []) with
    | none => simp [hn] at h
    | some outn =>
      simp only [hn] at h
      have hfs := traversable_of_fieldLoop self fs _ _ outn hn
      have hrest : traversable rest = true := by
        by_cases hp : outn.1 = false
        · simp only [hp, if_true] at h
          exact traversable_of_fieldLoop self rest pre _ out h
        · simp only [hp, if_false] at h
          exact traversable_of_fieldLoop self rest pre _ out h
      simp [traversable_struct, h1', hfs, hrest]
  | (sf, .ptr e) :: rest, pre, st, out, h => by
    rw [fieldLoop_ptr] at h
    rw [traversable_ptr]
    exact traversable_of_fieldLoop self rest pre st out h
  | (sf, .other) :: rest, pre, st, out, h => by
    rw [fieldLoop_other] at h
    rw [traversable_other]
    exact traversable_of_fieldLoop self rest pre st out h

theorem ValidateStruct_eq_none_of_not_record (self : Rules) (s : Value)
    (h : recordFields s = none) : self.ValidateStruct s = none := by
  unfold Rules.ValidateStruct
  cases s with
  | str b x => rfl
  | other => rfl
  | struct fs => simp [recordFields] at h
  | ptr e =>
    cases e with
    | none => rfl
    | some v =>
      cases v with
      | struct fs => simp [recordFields] at h
      | str b x => rfl
      | ptr e => rfl
      | other => rfl

/-- C14 (amended): `ValidateStruct` completes and returns a result exactly
when its argument is a record (a struct, or a non-nil pointer to a struct)
in which every string field and every nested record field, at any depth, is
exported and every string field has the type `string` itself; fields of
other kinds never make it fail. -/
theorem ValidateStruct_returns_iff_traversable (self : Rules) (s : Value) :
    (∃ out, self.ValidateStruct s = some out) ↔
      ∃ fs, recordFields s = some fs ∧ traversable fs = true := by
  constructor
  · rintro ⟨out, hout⟩
    cases hrec : recordFields s with
    | none =>
      rw [ValidateStruct_eq_none_of_not_record self s hrec] at hout
      cases hout
    | some fs =>
      rw [ValidateStruct_eq_fieldLoop self s fs hrec] at hout
      exact ⟨fs, rfl, traversable_of_fieldLoop self fs "" (true, []) out hout⟩
  · rintro ⟨fs, hrec, htrav⟩
    rw [ValidateStruct_eq_fieldLoop self s fs hrec]
    exact fieldLoop_isSome self fs "" (true, []) htrav

/-- C14 counterexample: three records on which the traversal panics: one
with an unexported string field, one with an exported field of a defined
string type, and one whose nested record field is unexported. -/
theorem ValidateStruct_returns_counterexample :
    (recordFields (.struct [(⟨"city", "main"⟩, .str true "x")]) =
        some [(⟨"city", "main"⟩, .str true "x")]
      ∧ New.ValidateStruct (.struct [(⟨"city", "main"⟩, .str true "x")]) = none)
    ∧ (recordFields (.struct [(⟨"Email", ""⟩, .str false "x")]) =
        some [(⟨"Email", ""⟩, .str false "x")]
      ∧ New.ValidateStruct (.struct [(⟨"Email", ""⟩, .str false "x")]) = none)
    ∧ (recordFields (.struct [(⟨"address", "main"⟩, .struct [(⟨"City", ""⟩, .str true "x")])]) =
        some [(⟨"address", "main"⟩, .struct [(⟨"City", ""⟩, .str true "x")])]
      ∧ New.ValidateStruct
          (.struct [(⟨"address", "main"⟩, .struct [(⟨"City", ""⟩, .str true "x")])]) = none) := by
  refine ⟨⟨rfl, ?_⟩, ⟨rfl, ?_⟩, ⟨rfl, ?_⟩⟩ <;> decide

/-! ## Worked examples of the specification -/

/-- C15: on a fresh registry, after `AddRequired "x" rule "must be numeric"`,
the empty value is invalid for "x"; the messages are exactly
"This value is required" followed by "must be numeric" when `rule` rejects
the empty string, and exactly "This value is required" when it accepts it. -/
theorem AddRequired_validate_empty_value (rule : Rule) :
    (rule "" ≠ none →
      (New.AddRequired "x" rule "must be numeric").ValidateKeyValue "x" "" =
        (false, ["This value is required", "must be numeric"]))
    ∧ (rule "" = none →
      (New.AddRequired "x" rule "must be numeric").ValidateKeyValue "x" "" =
        (false, ["This value is required"])) := by
  have hcs : (New.AddRequired "x" rule "must be numeric").constraintsOf "x" =
      [{ Rule := NotEmpty, Message := none }, newConstraint rule "must be numeric"] := by
    unfold Rules.AddRequired
    rw [constraintsOf_Add_same, constraintsOf_Add_same]
    rfl
  constructor
  · intro h
    obtain ⟨e, he⟩ := Option.ne_none_iff_exists'.1 h
    rw [ValidateKeyValue_eq, hcs]
    simp [List.filterMap_cons, Constraint.report, newConstraint, NotEmpty, he]
  · intro h
    rw [ValidateKeyValue_eq, hcs]
    simp [List.filterMap_cons, Constraint.report, newConstraint, NotEmpty, h]

/-- C15 witness: a numeric rule that rejects the empty string, and a rule
that accepts everything. -/
theorem AddRequired_validate_empty_value_witness :
    (New.AddRequired "x"
        (fun v => if v ≠ "" ∧ v.all Char.isDigit then none else some "not a number")
        "must be numeric").ValidateKeyValue "x" "" =
      (false, ["This value is required", "must be numeric"])
    ∧ (New.AddRequired "x" (fun _ => none) "must be numeric").ValidateKeyValue "x" "" =
      (false, ["This value is required"]) :=
  ⟨(AddRequired_validate_empty_value
      (fun v => if v ≠ "" ∧ v.all Char.isDigit then none else some "not a number")).1
      (by decide),
   (AddRequired_validate_empty_value (fun _ => none)).2 rfl⟩

/-- C16: with the non-empty rule registered under "Address.City" and nothing
else, the record `{Address: {City: ""}}` (by value or through a pointer) is
invalid and its message map is exactly
`{"Address.City": ["This value is required"]}`. -/
theorem ValidateStruct_nested_required_example :
    (New.Add "Address.City" NotEmpty "").ValidateStruct
        (.struct [(⟨"Address", ""⟩, .struct [(⟨"City", ""⟩, .str true "")])]) =
      some (false, [("Address.City", ["This value is required"])])
    ∧ (New.Add "Address.City" NotEmpty "").ValidateStruct
        (.ptr (some (.struct [(⟨"Address", ""⟩, .struct [(⟨"City", ""⟩, .str true "")])]))) =
      some (false, [("Address.City", ["This value is required"])])
    ∧ ∀ self : Rules, self.constraintsOf "Address.City" = [{ Rule := NotEmpty, Message := none }] →
        self.ValidateStruct
          (.struct [(⟨"Address", ""⟩, .struct [(⟨"City", ""⟩, .str true "")])]) =
        some (false, [("Address.City", ["This value is required"])]) := by
  refine ⟨by decide, by decide, ?_⟩
  intro self hcs
  have hv : self.ValidateKeyValue "Address.City" "" = (false, ["This value is required"]) := by
    rw [ValidateKeyValue_eq, hcs]
    rfl
  have hkey : ("" : String) ++ "Address" ++ "." ++ "City" = "Address.City" := by decide
  unfold Rules.ValidateStruct
  rw [validateStructWithKeyPrefix_struct, fieldLoop_struct, fieldLoop_str]
  simp only [hkey, hv]
  rfl

/-- C16 witness: the registry built by one `Add`. -/
theorem ValidateStruct_nested_required_example_witness :
    (New.Add "Address.City" NotEmpty "").ValidateStruct
        (.struct [(⟨"Address", ""⟩, .struct [(⟨"City", ""⟩, .str true "")])]) =
      some (false, [("Address.City", ["This value is required"])]) :=
  ValidateStruct_nested_required_example.2.2 (New.Add "Address.City" NotEmpty "") rfl

/-- C17: when "a" has the non-empty rule as its only constraint and "b" has
no constraint, `Validate {"a": "", "b": "ok"}` (in either enumeration order)
is invalid and its message map is exactly `{"a": ["This value is required"]}`:
one message under "a", no entry under "b" or any other key. -/
theorem Validate_required_and_unregistered_example (self : Rules) (params : GoMap String)
    (ha : self.constraintsOf "a" = [{ Rule := NotEmpty, Message := none }])
    (hb : self.constraintsOf "b" = [])
    (hp : params = [("a", ""), ("b", "ok")] ∨ params = [("b", "ok"), ("a", "")]) :
    self.Validate params = (false, [("a", ["This value is required"])])
    ∧ mapGet (self.Validate params).2 "b" = none
    ∧ mapKeys (self.Validate params).2 = ["a"] := by
  have hva : self.ValidateKeyValue "a" "" = (false, ["This value is required"]) := by
    rw [ValidateKeyValue_eq, ha]
    rfl
  have hvb : self.ValidateKeyValue "b" "ok" = (true, []) := by
    rw [ValidateKeyValue_eq, hb]
    rfl
  have hres : self.Validate params = (false, [("a", ["This value is required"])]) := by
    rcases hp with hp | hp <;> subst hp <;>
      simp [Rules.Validate, mapKeys, validateParamStep_eq, mapGet, hva, hvb, mapSet]
  rw [hres]
  exact ⟨rfl, by decide, by decide⟩

/-- C17 witness: the registry with "a" required by one `Add`. -/
theorem Validate_required_and_unregistered_example_witness :
    (New.Add "a" NotEmpty "").Validate [("a", ""), ("b", "ok")] =
        (false, [("a", ["This value is required"])])
    ∧ mapGet ((New.Add "a" NotEmpty "").Validate [("a", ""), ("b", "ok")]).2 "b" = none
    ∧ mapKeys ((New.Add "a" NotEmpty "").Validate [("a", ""), ("b", "ok")]).2 = ["a"] :=
  Validate_required_and_unregistered_example (New.Add "a" NotEmpty "")
    [("a", ""), ("b", "ok")] rfl rfl (Or.inl rfl)

/-! ## Well-formed results -/

theorem ValidateKeyValue_errors_ne_nil (self : Rules) (key value : String)
    (h : (self.ValidateKeyValue key value).1 = false) :
    (self.ValidateKeyValue key value).2 ≠ [] := by
  rw [ValidateKeyValue_eq] at h ⊢
  simp only at h ⊢
  generalize self.constraintsOf key = cs at h ⊢
  induction cs with
  | nil => simp at h
  | cons c cs ih =>
    cases hc : c.Rule value with
    | none =>
      have h' : cs.all (fun c => (c.Rule value).isNone) = false := by
        simpa [List.all_cons, hc] using h
      simpa [List.filterMap_cons, Constraint.report, hc] using ih h'
    | some e => simp [List.filterMap_cons, Constraint.report, hc]

theorem mapSet_ne_nil {V : Type} (m : GoMap V) (k : String) (v : V) : mapSet m k v ≠ [] := by
  cases m with
  | nil => simp [mapSet]
  | cons hd tl =>
    obtain ⟨k0, v0⟩ := hd
    by_cases h : k0 = k <;> simp [mapSet, h]

theorem mem_mapSet {V : Type} (m : GoMap V) (k : String) (v : V) (p : String × V)
    (h : p ∈ mapSet m k v) : p = (k, v) ∨ p ∈ m := by
  induction m with
  | nil =>
    left
    simpa [mapSet] using h
  | cons hd tl ih =>
    obtain ⟨k0, v0⟩ := hd
    by_cases h0 : k0 = k
    · simp only [mapSet, h0, if_true, List.mem_cons] at h
      rcases h with h | h
      · exact Or.inl h
      · exact Or.inr (List.mem_cons_of_mem _ h)
    · simp only [mapSet, h0, if_false, List.mem_cons] at h
      rcases h with h | h
      · exact Or.inr (by rw [h]; exact List.mem_cons_self _ _)
      · rcases ih h with h | h
        · exact Or.inl h
        · exact Or.inr (List.mem_cons_of_mem _ h)

theorem mem_mapMerge {V : Type} (e m : GoMap V) (p : String × V)
    (h : p ∈ mapMerge m e) : p ∈ m ∨ p ∈ e := by
  induction e generalizing m with
  | nil => exact Or.inl (by simpa [mapMerge] using h)
  | cons hd tl ih =>
    have h' : p ∈ mapMerge (mapSet m hd.1 hd.2) tl := by simpa [mapMerge] using h
    rcases ih _ h' with h1 | h1
    · rcases mem_mapSet m hd.1 hd.2 p h1 with h2 | h2
      · exact Or.inr (by rw [h2]; exact List.mem_cons_self _ _)
      · exact Or.inl h2
    · exact Or.inr (List.mem_cons_of_mem _ h1)

theorem mapMerge_eq_nil {V : Type} (e m : GoMap V) (h : mapMerge m e = []) :
    m = [] ∧ e = [] := by
  induction e generalizing m with
  | nil => exact ⟨by simpa [mapMerge] using h, rfl⟩
  | cons hd tl ih =>
    have h' : mapMerge (mapSet m hd.1 hd.2) tl = [] := by simpa [mapMerge] using h
    exact absurd (ih _ h').1 (mapSet_ne_nil m hd.1 hd.2)

/-- The loop keeps the result well formed. -/
theorem fieldLoop_wellFormed (self : Rules) :
    ∀ (fs : List (StructField × Value)) (pre : String)
      (st out : Bool × GoMap (List String)),
      fieldLoop self pre fs st = some out → WellFormedResult st → WellFormedResult out
  | [], pre, st, out, h, hst => by
    simp only [fieldLoop, Option.some.injEq] at h
    subst h
    exact hst
  | (sf, .str b s) :: rest, pre, st, out, h, hst => by
    rw [fieldLoop_str] at h
    by_cases h1 : sf.PkgPath ≠ ""
    · simp [h1] at h
    by_cases h2 : b = false
    · simp [h2] at h
    simp only [h1, h2, if_false] at h
    by_cases hp : (self.ValidateKeyValue (pre ++ sf.Name) s).1 = false
    · simp only [hp, if_true] at h
      refine fieldLoop_wellFormed self rest pre _ out h ⟨?_, ?_⟩
      · simp [mapSet_ne_nil]
      · intro k errs hmem
        rcases mem_mapSet _ _ _ _ hmem with hm | hm
        · simp only [Prod.mk.injEq] at hm
          rw [hm.2]
          exact ValidateKeyValue_errors_ne_nil self _ _ hp
        · exact hst.2 k errs hm
    · simp only [hp, if_false] at h
      exact fieldLoop_wellFormed self rest pre st out h hst
  | (sf, .struct fs) :: rest, pre, st, out, h, hst => by
    rw [fieldLoop_struct] at h
    by_cases h1 : sf.PkgPath ≠ ""
    · simp [h1] at h
    simp only [h1, if_false] at h
    cases hn : fieldLoop self (pre ++ sf.Name ++ ".") fs (true, []) with
    | none => simp [hn] at h
    | some outn =>
      simp only [hn] at h
      have hwn : WellFormedResult outn :=
        fieldLoop_wellFormed self fs _ (true, []) outn hn ⟨by simp, by simp⟩
      by_cases hp : outn.1 = false
      · simp only [hp, if_true] at h
        refine fieldLoop_wellFormed self rest pre _ out h ⟨?_, ?_⟩
        · have hne : outn.2 ≠ [] := by
            intro hnil
            have := hwn.1.2 hnil
            rw [hp] at this
            cases this
          have hm : mapMerge st.2 outn.2 ≠ [] := fun hnil => hne (mapMerge_eq_nil _ _ hnil).2
          simp [hm]
        · intro k errs hmem
          rcases mem_mapMerge _ _ _ hmem with hm | hm
          · exact hst.2 k errs hm
          · exact hwn.2 k errs hm
      · simp only [hp, if_false] at h
        exact fieldLoop_wellFormed self rest pre st out h hst
  | (sf, .ptr e) :: rest, pre, st, out, h, hst => by
    rw [fieldLoop_ptr] at h
    exact fieldLoop_wellFormed self rest pre st out h hst
  | (sf, .other) :: rest, pre, st, out, h, hst => by
    rw [fieldLoop_other] at h
    exact fieldLoop_wellFormed self rest pre st out h hst

theorem lastFailure_some_mem (self : Rules) (l : List (String × String)) (k : String)
    (errs : List String) (h : lastFailure self l k = some errs) :
    ∃ v, (k, v) ∈ l ∧ self.ValidateKeyValue k v = (false, errs) := by
  induction l with
  | nil => simp [lastFailure] at h
  | cons hd tl ih =>
    obtain ⟨k0, s0⟩ := hd
    rw [lastFailure, Option.or_eq_some] at h
    rcases h with h | ⟨_, h⟩
    · obtain ⟨v, hv, hfail⟩ := ih h
      exact ⟨v, List.mem_cons_of_mem _ hv, hfail⟩
    · by_cases hc : k0 = k ∧ (self.ValidateKeyValue k0 s0).1 = false
      · rw [if_pos hc] at h
        obtain ⟨hk, hf⟩ := hc
        subst hk
        refine ⟨s0, List.mem_cons_self _ _, Prod.ext hf ?_⟩
        simpa using h
      · rw [if_neg hc] at h
        cases h

/-- C18: every result `ValidateStruct` returns is well formed: the boolean is
`true` exactly when the message map is empty (no entry, hence no key with a
lookup), every entry, merged from any depth, is a non-empty message list,
and it is the message list of a string leaf that fails under that key; and a
result is returned for every traversable record. -/
theorem ValidateStruct_result_wellFormed (self : Rules) (s : Value) :
    (∀ out, self.ValidateStruct s = some out →
        WellFormedResult out
        ∧ (out.1 = true ↔ ∀ k, mapGet out.2 k = none)
        ∧ (∀ k errs, mapGet out.2 k = some errs → errs ≠ [])
        ∧ (∀ k errs, mapGet out.2 k = some errs →
            ∃ fs v, recordFields s = some fs ∧ (k, v) ∈ fieldLeaves "" fs
              ∧ self.ValidateKeyValue k v = (false, errs)))
    ∧ (∀ fs, recordFields s = some fs → traversable fs = true →
        ∃ out, self.ValidateStruct s = some out) := by
  constructor
  · intro out hout
    cases hrec : recordFields s with
    | none =>
      rw [ValidateStruct_eq_none_of_not_record self s hrec] at hout
      cases hout
    | some fs =>
      rw [ValidateStruct_eq_fieldLoop self s fs hrec] at hout
      have hwf : WellFormedResult out :=
        fieldLoop_wellFormed self fs "" (true, []) out hout ⟨by simp, by simp⟩
      obtain ⟨_, _, hget⟩ := fieldLoop_spec self fs "" (true, []) out hout (by simp [mapKeys])
      refine ⟨hwf, ?_, ?_, ?_⟩
      · rw [hwf.1]
        constructor
        · intro h k
          rw [h]
          rfl
        · intro h
          cases hm : out.2 with
          | nil => rfl
          | cons hd tl =>
            have := h hd.1
            rw [hm] at this
            simp [mapGet] at this
      · intro k errs hk
        exact hwf.2 k errs (mem_of_mapGet _ _ _ hk)
      · intro k errs hk
        rw [hget k] at hk
        simp only [mapGet, Option.or_none] at hk
        obtain ⟨v, hv, hfail⟩ := lastFailure_some_mem self _ k errs hk
        exact ⟨fs, v, rfl, hv, hfail⟩
  · intro fs hrec htrav
    rw [ValidateStruct_eq_fieldLoop self s fs hrec]
    exact fieldLoop_isSome self fs "" (true, []) htrav

/-- C18 witness: a record with a failing leaf two levels down and a passing
leaf at the top. -/
theorem ValidateStruct_result_wellFormed_witness :
    WellFormedResult (false, [("Owner.Address.City", ["This value is required"])])
    ∧ ∃ out, (New.Add "Owner.Address.City" NotEmpty "").ValidateStruct
        (.struct [(⟨"Name", ""⟩, .str true "bob"),
          (⟨"Owner", ""⟩, .struct [(⟨"Address", ""⟩,
            .struct [(⟨"City", ""⟩, .str true "")])])]) = some out :=
  ⟨((ValidateStruct_result_wellFormed (New.Add "Owner.Address.City" NotEmpty "")
      (.struct [(⟨"Name", ""⟩, .str true "bob"),
        (⟨"Owner", ""⟩, .struct [(⟨"Address", ""⟩,
          .struct [(⟨"City", ""⟩, .str true "")])])])).1
      (false, [("Owner.Address.City", ["This value is required"])]) (by decide)).1,
   (ValidateStruct_result_wellFormed (New.Add "Owner.Address.City" NotEmpty "")
      (.struct [(⟨"Name", ""⟩, .str true "bob"),
        (⟨"Owner", ""⟩, .struct [(⟨"Address", ""⟩,
          .struct [(⟨"City", ""⟩, .str true "")])])])).2 _ rfl (by decide)⟩

/-! ## `ValidateStruct` against `Validate` on the flat map of leaves -/

theorem Validate_get_eq_some_iff (self : Rules) (params : GoMap String) (k : String)
    (errs : List String) :
    mapGet (self.Validate params).2 k = some errs ↔
      (k ∈ mapKeys params ∧
        self.ValidateKeyValue k ((mapGet params k).getD "") = (false, errs)) := by
  rw [Validate_get]
  by_cases hc : k ∈ mapKeys params ∧
      (self.ValidateKeyValue k ((mapGet params k).getD "")).1 = false
  · rw [if_pos hc]
    constructor
    · intro h
      refine ⟨hc.1, Prod.ext hc.2 ?_⟩
      simpa using h
    · rintro ⟨_, h⟩
      rw [h]
  · rw [if_neg hc]
    constructor
    · intro h
      cases h
    · rintro ⟨hm, h⟩
      exact absurd ⟨hm, by rw [h]⟩ hc

/-- C19 (amended): for a record, by value or through a pointer, whose string
and nested record fields are exported, whose string fields have the type
`string` itself, and whose field names are distinct within each record and
contain no '.', `ValidateStruct` returns the same boolean and the same
message map (the same lookup for every key) as `Validate` on the flat map
sending the dotted path of each string leaf to its value, in whatever order
that map is enumerated. -/
theorem ValidateStruct_eq_Validate_on_leaves (self : Rules) (s : Value)
    (fs : List (StructField × Value)) (params : GoMap String)
    (hrec : recordFields s = some fs) (htrav : traversable fs = true)
    (huniq : uniqueNames fs = true) (hdot : dotFree fs = true)
    (hflat : params.Perm (fieldLeaves "" fs)) :
    ∃ out, self.ValidateStruct s = some out
      ∧ out.1 = (self.Validate params).1
      ∧ ∀ k, mapGet out.2 k = mapGet (self.Validate params).2 k := by
  obtain ⟨out, hout⟩ := fieldLoop_isSome self fs "" (true, []) htrav
  obtain ⟨hvalid, _, hget⟩ := fieldLoop_spec self fs "" (true, []) out hout (by simp [mapKeys])
  have hndl : ((fieldLeaves "" fs).map Prod.fst).Nodup := fieldLeaves_keys_nodup fs "" huniq hdot
  have hndp : (mapKeys params).Nodup := (List.Perm.nodup_iff (hflat.map Prod.fst)).2 hndl
  have hlook : ∀ k v, (k, v) ∈ fieldLeaves "" fs → mapGet params k = some v :=
    fun k v h => mapGet_of_mem params hndp k v (hflat.mem_iff.2 h)
  refine ⟨out, ?_, ?_, ?_⟩
  · rw [ValidateStruct_eq_fieldLoop self s fs hrec, hout]
  · rw [hvalid, Validate_valid_eq, Bool.true_and, Bool.eq_iff_iff]
    simp only [allValid, List.all_eq_true]
    constructor
    · intro h k hk
      obtain ⟨p, hp, hpk⟩ := List.mem_map.1 hk
      obtain ⟨k', v⟩ := p
      simp only at hpk
      subst hpk
      have hmem := hflat.mem_iff.1 hp
      rw [hlook k' v hmem]
      exact h (k', v) hmem
    · intro h p hp
      obtain ⟨k, v⟩ := p
      have hk : k ∈ mapKeys params := List.mem_map.2 ⟨(k, v), hflat.mem_iff.2 hp, rfl⟩
      have := h k hk
      rw [hlook k v hp] at this
      exact this
  · intro k
    apply Option.ext
    intro errs
    show mapGet out.2 k = some errs ↔ mapGet (self.Validate params).2 k = some errs
    rw [hget k, Validate_get_eq_some_iff]
    simp only [mapGet, Option.or_none]
    rw [lastFailure_eq_some_iff self _ hndl k errs]
    constructor
    · rintro ⟨v, hv, hfail⟩
      refine ⟨List.mem_map.2 ⟨(k, v), hflat.mem_iff.2 hv, rfl⟩, ?_⟩
      rw [hlook k v hv]
      exact hfail
    · rintro ⟨hk, hfail⟩
      obtain ⟨p, hp, hpk⟩ := List.mem_map.1 hk
      obtain ⟨k', v⟩ := p
      simp only at hpk
      subst hpk
      have hmem := hflat.mem_iff.1 hp
      rw [hlook k' v hmem] at hfail
      exact ⟨v, hmem, hfail⟩

/-- C19 witness: a record with a passing leaf, a failing nested leaf and a
skipped field, against the flat map of its two leaves in reverse order. -/
theorem ValidateStruct_eq_Validate_on_leaves_witness :
    ∃ out, (New.Add "Address.City" NotEmpty "").ValidateStruct
        (.struct [(⟨"Name", ""⟩, .str true "bob"),
          (⟨"Address", ""⟩, .struct [(⟨"City", ""⟩, .str true "")]),
          (⟨"Age", ""⟩, .other)]) = some out
      ∧ out.1 = ((New.Add "Address.City" NotEmpty "").Validate
          [("Address.City", ""), ("Name", "bob")]).1
      ∧ ∀ k, mapGet out.2 k = mapGet ((New.Add "Address.City" NotEmpty "").Validate
          [("Address.City", ""), ("Name", "bob")]).2 k :=
  ValidateStruct_eq_Validate_on_leaves (New.Add "Address.City" NotEmpty "")
    (.struct [(⟨"Name", ""⟩, .str true "bob"),
      (⟨"Address", ""⟩, .struct [(⟨"City", ""⟩, .str true "")]),
      (⟨"Age", ""⟩, .other)])
    [(⟨"Name", ""⟩, .str true "bob"),
      (⟨"Address", ""⟩, .struct [(⟨"City", ""⟩, .str true "")]),
      (⟨"Age", ""⟩, .other)]
    [("Address.City", ""), ("Name", "bob")]
    rfl (by decide) (by decide) (by decide) (List.Perm.swap _ _ _)

/-- C19 counterexample: a record with distinct dot-free field names, one of
them an unexported string field: `Validate` on the flat map of its leaves
returns a result, `ValidateStruct` panics. -/
theorem ValidateStruct_eq_Validate_on_leaves_counterexample :
    uniqueNames [(⟨"city", "main"⟩, .str true "")] = true
    ∧ dotFree [(⟨"city", "main"⟩, .str true "")] = true
    ∧ fieldLeaves "" [(⟨"city", "main"⟩, .str true "")] = [("city", "")]
    ∧ (New.Add "city" NotEmpty "").Validate [("city", "")] =
        (false, [("city", ["This value is required"])])
    ∧ (New.Add "city" NotEmpty "").ValidateStruct
        (.struct [(⟨"city", "main"⟩, .str true "")]) = none := by
  refine ⟨by decide, by decide, by decide, by decide, by decide⟩

/-! ## Required fields stay required -/

theorem constraintsOf_Add_other (self : Rules) (name other : String) (rule : Rule)
    (message : String) (h : name ≠ other) :
    (self.Add name rule message).constraintsOf other = self.constraintsOf other := by
  unfold Rules.constraintsOf
  rw [mapGet_Add_other self name other rule message h]

theorem requires_Add (self : Rules) (name name' : String) (rule : Rule) (message : String)
    (h : self.requires name) : (self.Add name' rule message).requires name := by
  obtain ⟨c, hc, hprop⟩ := h
  by_cases hn : name' = name
  · subst hn
    refine ⟨c, ?_, hprop⟩
    rw [constraintsOf_Add_same]
    exact List.mem_append_left _ hc
  · refine ⟨c, ?_, hprop⟩
    rw [constraintsOf_Add_other self name' name rule message hn]
    exact hc

theorem requires_AddRequired_self (self : Rules) (name : String) (rule : Rule)
    (message : String) : (self.AddRequired name rule message).requires name := by
  unfold Rules.AddRequired
  apply requires_Add
  refine ⟨{ Rule := NotEmpty, Message := none }, ?_, rfl, rfl⟩
  rw [constraintsOf_Add_same]
  simp [newConstraint]

theorem requires_register (self : Rules) (name : String) (call : Registration)
    (h : self.requires name) : (self.register call).requires name := by
  cases call with
  | add name' rule message => exact requires_Add self name name' rule message h
  | addRequired name' rule message =>
    unfold Rules.register Rules.AddRequired
    exact requires_Add _ name name' rule message (requires_Add self name name' _ _ h)

theorem requires_registerAll (calls : List Registration) (self : Rules) (name : String)
    (h : self.requires name) : (self.registerAll calls).requires name := by
  induction calls generalizing self with
  | nil => exact h
  | cons call calls ih =>
    unfold Rules.registerAll
    rw [List.foldl_cons]
    exact ih (self.register call) (requires_register self name call h)

theorem ValidateKeyValue_empty_of_requires (self : Rules) (name : String)
    (h : self.requires name) :
    (self.ValidateKeyValue name "").1 = false
    ∧ "This value is required" ∈ (self.ValidateKeyValue name "").2 := by
  obtain ⟨c, hc, hrule, hmsg⟩ := h
  have hrej : c.Rule "" = some "This value is required" := by
    rw [hrule]
    rfl
  rw [ValidateKeyValue_eq]
  constructor
  · simp only [List.all_eq_false]
    exact ⟨c, hc, by simp [hrej]⟩
  · simp only [List.mem_filterMap]
    exact ⟨c, hc, by simp [Constraint.report, hrej, hmsg]⟩

/-- C20: whatever the registry holds, after `AddRequired name rule message`
and any further sequence of `Add` and `AddRequired` calls on any fields
(none included), `ValidateKeyValue name ""` is invalid and its message list
contains "This value is required". -/
theorem AddRequired_keeps_empty_value_invalid (self : Rules) (name : String) (rule : Rule)
    (message : String) (later : List Registration) :
    (((self.AddRequired name rule message).registerAll later).ValidateKeyValue name "").1 = false
    ∧ "This value is required" ∈
        (((self.AddRequired name rule message).registerAll later).ValidateKeyValue name "").2 :=
  ValidateKeyValue_empty_of_requires _ name
    (requires_registerAll later _ name (requires_AddRequired_self self name rule message))

end Validation
